import Mathlib

/-!
A verification development for the cascade object detector of
`src/Simd/SimdDetection.hpp` (`Simd::Detection`).  The C++ structures and
algorithms used by the claims are shallowly embedded below:

* `Rect` / `Object` mirror `Detection::Rect` and `Detection::Object`;
  coordinates of rectangles are modelled as exact rationals (`ℚ`) standing
  for the C++ `ptrdiff_t` / `double` mixed arithmetic, so that the averaged
  rectangles of `GroupObjects` are exact component-wise means.
* `Similar` mirrors `Similar::operator()`.
* `Partition` mirrors the union-find `Detection::Partition`, with the
  `while` loops realised by fuel-bounded recursion (fuel `N` is large
  enough, as the development proves).
* `GroupObjects` mirrors `Detection::GroupObjects`.
* `Hid::Detect`'s strip splitting and `FillLevels`, `InitLevels`, `Init`,
  `Detect` are embedded structurally; the native kernels
  (`SimdDetection*Detect*`, `SimdDetectionInit`, resize/integral
  primitives) are not part of the sources and are modelled as oracles,
  following the specification's description of their contracts.
-/

namespace SimdDetection

/-- A rectangle, as `Simd::Rectangle<ptrdiff_t>` used through `GroupObjects`;
coordinates are exact rationals (integer-valued where the C++ code holds
integers). -/
structure Rect where
  left : ℚ
  top : ℚ
  right : ℚ
  bottom : ℚ
deriving DecidableEq, Repr

/-- `Rectangle::Width`. -/
def Rect.Width (r : Rect) : ℚ := r.right - r.left

/-- `Rectangle::Height`. -/
def Rect.Height (r : Rect) : ℚ := r.bottom - r.top

/-- Component-wise rectangle addition, as the `buffer[cls].rect += src[i].rect`
accumulation of `GroupObjects`. -/
def Rect.add (a b : Rect) : Rect :=
  ⟨a.left + b.left, a.top + b.top, a.right + b.right, a.bottom + b.bottom⟩

/-- Modelled from the spec: `Rectangle<T> operator / (rect, double)` of the
`Simd` point/rectangle headers (which are not among the sources); per the
specification's "rectangle = mean of member rectangles (component-wise)" the
division is the exact component-wise division. -/
def Rect.divQ (a : Rect) (v : ℚ) : Rect :=
  ⟨a.left / v, a.top / v, a.right / v, a.bottom / v⟩

/-- The zero rectangle `Rect()`, the default constructor value. -/
def Rect.zero : Rect := ⟨0, 0, 0, 0⟩

/-- The undefined object tag `UNDEFINED_OBJECT_TAG = -1`. -/
def UNDEFINED_OBJECT_TAG : ℤ := -1

/-- `Detection::Object`: a bounding rectangle, a weight and a tag. -/
structure Object where
  rect : Rect
  weight : ℤ
  tag : ℤ
deriving DecidableEq, Repr

/-- `Object()` default: zero rectangle, weight `0`, undefined tag. -/
def Object.default : Object := ⟨Rect.zero, 0, UNDEFINED_OBJECT_TAG⟩

/-- `Simd::Round` for doubles (in the `SimdLib` headers, which are not among
the sources): truncation of `value + 0.5` (resp. `value - 0.5` for negative
values) toward zero, i.e. rounding half away from zero. -/
def Round (v : ℚ) : ℤ :=
  if 0 ≤ v then ⌊v + 1/2⌋ else ⌈v - 1/2⌉

/-- `Similar::operator()`: all four edge deltas are bounded by
`sizeDifferenceMax * (min(w1,w2) + min(h1,h2)) * 0.5`. -/
def Similar (sizeDifferenceMax : ℚ) (o1 o2 : Object) : Bool :=
  let r1 := o1.rect
  let r2 := o2.rect
  let delta := sizeDifferenceMax * (min r1.Width r2.Width + min r1.Height r2.Height) * (1/2)
  |r1.left - r2.left| ≤ delta && |r1.top - r2.top| ≤ delta &&
  |r1.right - r2.right| ≤ delta && |r1.bottom - r2.bottom| ≤ delta

/-! ### The union-find of `Detection::Partition`

The C++ code keeps one flat array `_nodes` of `N` pairs
`(nodes[i][PARENT], nodes[i][RANK])`; here the two columns are two parallel
lists.  The `while` loops chasing parent pointers are realised with fuel
`N`, which suffices: the development proves the parent pointers always form
a forest whose chains are shorter than `N`. -/

/-- The node arrays of `Partition`: `nodes[i][PARENT]` and `nodes[i][RANK]`. -/
structure Nodes where
  parent : List ℤ
  rank : List ℤ
deriving DecidableEq, Repr

/-- Read `nodes[i][PARENT]` (out of range reads the initial value `-1`). -/
def pf (n : Nodes) (i : ℕ) : ℤ := n.parent.getD i (-1)

/-- Read `nodes[i][RANK]` (out of range reads the initial value `0`). -/
def rf (n : Nodes) (i : ℕ) : ℤ := n.rank.getD i 0

/-- One step of parent chasing, `root = nodes[root][PARENT]`. -/
def pstep (n : Nodes) (i : ℕ) : ℕ := (pf n i).toNat

/-- `i` is a root: `nodes[i][PARENT] < 0`. -/
def IsRootN (n : Nodes) (i : ℕ) : Prop := pf n i < 0

/-- Write `nodes[k][PARENT] = r`. -/
def setParent (n : Nodes) (k : ℕ) (r : ℕ) : Nodes :=
  { n with parent := n.parent.set k (r : ℤ) }

/-- Write `nodes[k][RANK] = v`. -/
def setRank (n : Nodes) (k : ℕ) (v : ℤ) : Nodes :=
  { n with rank := n.rank.set k v }

/-- The initialisation loop of `Partition`: every `PARENT` is `-1`, every
`RANK` is `0`. -/
def initNodes (N : ℕ) : Nodes :=
  ⟨List.replicate N (-1), List.replicate N 0⟩

/-- The root-finding loop `while (nodes[root][PARENT] >= 0) root = ...`,
with fuel. -/
def findRoot (n : Nodes) : ℕ → ℕ → ℕ
  | 0, root => root
  | fuel + 1, root => if 0 ≤ pf n root then findRoot n fuel (pstep n root) else root

/-- The path-compression loop
`while ((parent = nodes[k][PARENT]) >= 0) { nodes[k][PARENT] = root; k = parent; }`,
with fuel; the continuation index is the parent read before the write. -/
def compress (root : ℕ) : ℕ → Nodes → ℕ → Nodes
  | 0, n, _ => n
  | fuel + 1, n, k =>
    if 0 ≤ pf n k then compress root fuel (setParent n k root) (pstep n k) else n

/-- `~v` on a two's-complement `int`: `~v = -v - 1`. -/
def intNot (v : ℤ) : ℤ := -v - 1

/-- The body of the inner `j` loop of `Partition`: try to union the sets of
`i` (whose current root is carried in the state) and `j`, then compress both
paths toward the new root. -/
def unionTry (sim : ℕ → ℕ → Bool) (N : ℕ) (i : ℕ) (st : Nodes × ℕ) (j : ℕ) : Nodes × ℕ :=
  if i = j ∨ sim i j = false then st
  else
    let n := st.1
    let root := st.2
    let root2 := findRoot n N j
    if root2 = root then st
    else
      let rank := rf n root
      let rank2 := rf n root2
      let merged : Nodes × ℕ :=
        if rank2 < rank then (setParent n root2 root, root)
        else
          let n1 := setParent n root root2
          let n2 := if rank = rank2 then setRank n1 root2 (rank2 + 1) else n1
          (n2, root2)
      let n3 := compress merged.2 N merged.1 j
      let n4 := compress merged.2 N n3 i
      (n4, merged.2)

/-- The double `i`/`j` loop of `Partition` building the union-find forest. -/
def unionLoop (sim : ℕ → ℕ → Bool) (N : ℕ) : Nodes :=
  (List.range N).foldl
    (fun n i => ((List.range N).foldl (unionTry sim N i) (n, findRoot n N i)).1)
    (initNodes N)

/-- The final labelling loop of `Partition`: find the root of `i`, if its
`RANK` is still nonnegative assign it the next class as `~nclasses++`, and
record `labels[i] = ~nodes[root][RANK]`. -/
def labelStep (N : ℕ) (st : Nodes × ℤ × List ℤ) (i : ℕ) : Nodes × ℤ × List ℤ :=
  let n := st.1
  let ncl := st.2.1
  let root := findRoot n N i
  let upd : Nodes × ℤ :=
    if 0 ≤ rf n root then (setRank n root (intNot ncl), ncl + 1) else (n, ncl)
  (upd.1, upd.2, st.2.2 ++ [intNot (rf upd.1 root)])

/-- `Detection::Partition` over an abstract similarity function on indices:
returns `(labels, nclasses)`. -/
def PartitionCore (sim : ℕ → ℕ → Bool) (N : ℕ) : List ℤ × ℤ :=
  let st := (List.range N).foldl (labelStep N) (unionLoop sim N, 0, [])
  (st.2.2, st.2.1)

/-- `Detection::Partition` instantiated with `Similar` on the candidate
vector, as called from `GroupObjects`. -/
def Partition (vec : List Object) (sizeDifferenceMax : ℚ) : List ℤ × ℤ :=
  PartitionCore
    (fun i j => Similar sizeDifferenceMax (vec.getD i Object.default) (vec.getD j Object.default))
    vec.length

/-! #### Forest invariants of the union-find

The development proves that the parent pointers always form a forest with
chains shorter than `N`, so that the fuel `N` of `findRoot` and `compress`
is never exhausted. -/

instance (n : Nodes) (i : ℕ) : Decidable (IsRootN n i) := by
  unfold IsRootN; infer_instance

/-- The first `k` nodes of the parent chain from `i` are all non-roots. -/
def ChainOk (n : Nodes) (i k : ℕ) : Prop :=
  ∀ m, m < k → ¬ IsRootN n ((pstep n)^[m] i)

/-- No non-trivial parent chain returns to its start. -/
def AcyclicN (n : Nodes) : Prop :=
  ∀ i k, 0 < k → ChainOk n i k → (pstep n)^[k] i ≠ i

/-- Every parent entry is below `N`. -/
def ParentsLtN (N : ℕ) (n : Nodes) : Prop := ∀ i, pf n i < (N : ℤ)

/-- The union-find invariant: array sizes, parent range, and acyclicity. -/
def InvN (N : ℕ) (n : Nodes) : Prop :=
  n.parent.length = N ∧ n.rank.length = N ∧ ParentsLtN N n ∧ AcyclicN n

/-- All ranks are nonnegative (true until the labelling pass). -/
def RanksPos (n : Nodes) : Prop := ∀ i, 0 ≤ rf n i

/-- The state invariant of the inner union loop: the nodes satisfy the
union-find invariant with nonnegative ranks, and the carried root is a
root below `N`. -/
def UStInv (N : ℕ) (st : Nodes × ℕ) : Prop :=
  InvN N st.1 ∧ RanksPos st.1 ∧ IsRootN st.1 st.2 ∧ st.2 < N

/-- The state invariant of the labelling loop: the union-find invariant
still holds, the class counter is nonnegative, every root's rank is either
still nonnegative or the encoded class of an already-assigned class, the
labels issued so far lie in `[0, nclasses)`, and every class below the
counter has been issued. -/
def LabelInv (N : ℕ) (st : Nodes × ℤ × List ℤ) : Prop :=
  InvN N st.1 ∧ 0 ≤ st.2.1 ∧
  (∀ r, IsRootN st.1 r → (0 ≤ rf st.1 r ∨ ∃ c, 0 ≤ c ∧ c < st.2.1 ∧ rf st.1 r = intNot c)) ∧
  (∀ l ∈ st.2.2, 0 ≤ l ∧ l < st.2.1) ∧
  (∀ c : ℤ, 0 ≤ c → c < st.2.1 → c ∈ st.2.2)

/-! ### `Detection::GroupObjects` -/

/-- One step of the accumulation loop of `GroupObjects`:
`buffer[cls].rect += src[i].rect; buffer[cls].weight++; buffer[cls].tag = src[i].tag`. -/
def accumStep (src : List Object) (labels : List ℤ) (buf : List Object) (i : ℕ) : List Object :=
  let cls := (labels.getD i 0).toNat
  let o := buf.getD cls Object.default
  buf.set cls
    ⟨o.rect.add (src.getD i Object.default).rect, o.weight + 1, (src.getD i Object.default).tag⟩

/-- The accumulation loop of `GroupObjects` over a buffer of `nclasses`
default objects. -/
def accumulate (src : List Object) (labels : List ℤ) (nclasses : ℤ) : List Object :=
  (List.range labels.length).foldl (accumStep src labels)
    (List.replicate nclasses.toNat Object.default)

/-- The averaging loop of `GroupObjects`:
`buffer[i].rect = buffer[i].rect / double(buffer[i].weight)`. -/
def average (buffer : List Object) : List Object :=
  buffer.map (fun o => { o with rect := o.rect.divQ (o.weight : ℚ) })

/-- The `break` condition of the inner `j` loop of the suppression pass of
`GroupObjects` (the `continue` cases yield `false`).  Weights are member
counts and hence nonnegative, so the C++ `int`-to-`size_t` conversion in
`n2 < groupSizeMin` is the identity. -/
def suppressCond (buffer : List Object) (groupSizeMin : ℕ) (sdm : ℚ) (i j : ℕ) : Bool :=
  let o1 := buffer.getD i Object.default
  let o2 := buffer.getD j Object.default
  if j = i ∨ o2.weight < (groupSizeMin : ℤ) then false
  else
    let dx := Round (o2.rect.Width * sdm)
    let dy := Round (o2.rect.Height * sdm)
    decide (i ≠ j ∧ (max 3 o1.weight < o2.weight ∨ o1.weight < 3) ∧
      (o2.rect.left - dx ≤ o1.rect.left ∧ o2.rect.top - dy ≤ o1.rect.top ∧
       o1.rect.right ≤ o2.rect.right + dx ∧ o1.rect.bottom ≤ o2.rect.bottom + dy))

/-- The per-cluster decision of the suppression pass: cluster `i` is pushed
to the output iff its weight reaches `groupSizeMin` and the inner `j` loop
finds no witness (`j == buffer.size()` at the end). -/
def emitB (buffer : List Object) (groupSizeMin : ℕ) (sdm : ℚ) (i : ℕ) : Bool :=
  decide ((groupSizeMin : ℤ) ≤ (buffer.getD i Object.default).weight) &&
  !((List.range buffer.length).any (suppressCond buffer groupSizeMin sdm i))

/-- The suppression pass of `GroupObjects` over the averaged buffer. -/
def suppressPass (buffer : List Object) (groupSizeMin : ℕ) (sdm : ℚ) : List Object :=
  (List.range buffer.length).filterMap (fun i =>
    if emitB buffer groupSizeMin sdm i then some (buffer.getD i Object.default) else none)

/-- `Detection::GroupObjects`: early exit when `groupSizeMin == 0` or there
are fewer candidates than `groupSizeMin`; otherwise partition, accumulate,
average and suppress, appending the survivors to `dst`. -/
def GroupObjects (dst : List Object) (src : List Object) (groupSizeMin : ℕ) (sdm : ℚ) :
    List Object :=
  if groupSizeMin = 0 ∨ src.length < groupSizeMin then dst
  else
    let p := Partition src sdm
    dst ++ suppressPass (average (accumulate src p.1 p.2)) groupSizeMin sdm

/-- The members of class `cls` under a label list: the indices `i` with
`labels[i] = cls`, in order. -/
def classMembers (labels : List ℤ) (cls : ℤ) : List ℕ :=
  (List.range labels.length).filter (fun i => labels.getD i 0 = cls)

/-- Component-wise sum of a list of rectangles. -/
def sumRects : List Rect → Rect
  | [] => Rect.zero
  | r :: rs => r.add (sumRects rs)

/-- The claim's description of the suppression decision (C2), written from
the specification's words: a cluster `i` with weight at least `groupSizeMin`
is emitted iff no other cluster `j` with weight at least `groupSizeMin`
both spatially contains `i` within the rounded margins and dominates it by
weight (`weight_j > max(3, weight_i)` or `weight_i < 3`). -/
def EmitSpec (buffer : List Object) (groupSizeMin : ℕ) (sdm : ℚ) (i : ℕ) : Prop :=
  (groupSizeMin : ℤ) ≤ (buffer.getD i Object.default).weight ∧
  ¬ ∃ j, j < buffer.length ∧ j ≠ i ∧
    (groupSizeMin : ℤ) ≤ (buffer.getD j Object.default).weight ∧
    (max 3 (buffer.getD i Object.default).weight < (buffer.getD j Object.default).weight ∨
      (buffer.getD i Object.default).weight < 3) ∧
    ((buffer.getD j Object.default).rect.left -
        Round (sdm * (buffer.getD j Object.default).rect.Width) ≤
        (buffer.getD i Object.default).rect.left ∧
     (buffer.getD j Object.default).rect.top -
        Round (sdm * (buffer.getD j Object.default).rect.Height) ≤
        (buffer.getD i Object.default).rect.top ∧
     (buffer.getD i Object.default).rect.right ≤
        (buffer.getD j Object.default).rect.right +
          Round (sdm * (buffer.getD j Object.default).rect.Width) ∧
     (buffer.getD i Object.default).rect.bottom ≤
        (buffer.getD j Object.default).rect.bottom +
          Round (sdm * (buffer.getD j Object.default).rect.Height))

/-! ### The strip splitting of `Hid::Detect`

`Hid::Detect` either runs the bound routine synchronously over the whole
valid sub-rectangle `[r.top, r.bottom)` or splits that row range into
`workers.size()` strips.  The native routines are not among the sources;
following the specification (§4.4/§4.5), a routine invoked on rows
`[top, bottom)` processes the rows `top, top + d, ...` below `bottom`
(`d = 2` for the `throughColumn` variants, else `d = 1`), and writes each
processed row a value depending only on the row. -/

/-- The strip row step of `Hid::Detect`:
`step = (r.bottom - r.top) / workers.size() + 1`, then `step += step & 1`
when `throughColumn`. -/
def stripStep (t b : ℤ) (N : ℕ) (throughColumn : Bool) : ℕ :=
  let step := (b - t).toNat / N + 1
  if throughColumn then step + step % 2 else step

/-- The top row of strip `i`: `top = r.top + i*step`. -/
def stripTop (t : ℤ) (step : ℕ) (i : ℕ) : ℤ := t + i * step

/-- The bottom row of strip `i`: `bottom = min(top + step, r.bottom)`. -/
def stripBottom (t b : ℤ) (step : ℕ) (i : ℕ) : ℤ :=
  min (stripTop t step i + step) b

/-- The row stride of the bound routine: `2` for `throughColumn` variants,
else `1`. -/
def stride (throughColumn : Bool) : ℤ := if throughColumn then 2 else 1

/-- Modelled from the spec: the set of rows processed by a native detection
routine invoked on rows `[t, b)` — the rows at stride distance from `t`. -/
def detectRows (throughColumn : Bool) (t b row : ℤ) : Prop :=
  t ≤ row ∧ row < b ∧ (row - t) % stride throughColumn = 0

instance (tc : Bool) (t b row : ℤ) : Decidable (detectRows tc t b row) := by
  unfold detectRows; infer_instance

/-- Modelled from the spec: the bitmap after one synchronous call of the
routine on rows `[t, b)` over a cleared bitmap — row contents depend only on
the row. -/
def runDetect {α : Type} (f : ℤ → α) (z : α) (tc : Bool) (t b : ℤ) : ℤ → α :=
  fun row => if detectRows tc t b row then f row else z

/-- Modelled from the spec: the bitmap after running the routine once per
strip over a cleared bitmap, each strip call overlaying its processed rows. -/
def runStrips {α : Type} (f : ℤ → α) (z : α) (tc : Bool) (t b : ℤ) (N : ℕ) : ℤ → α :=
  (List.range N).foldl
    (fun g i => fun row =>
      if detectRows tc (stripTop t (stripStep t b N tc) i) (stripBottom t b (stripStep t b N tc) i)
          row then f row else g row)
    (fun _ => z)

/-- The strip properties claimed for `Hid::Detect` (C1): the strips are
pairwise disjoint (no row is processed by two strips), the strip row sets
together are exactly the row set of one synchronous call, and the plain
strip intervals cover exactly `[top, bottom)`. -/
def StripSplitSpec (t b : ℤ) (N : ℕ) (tc : Bool) : Prop :=
  (∀ i j, i < N → j < N → i ≠ j → ∀ row : ℤ,
      detectRows tc (stripTop t (stripStep t b N tc) i)
        (stripBottom t b (stripStep t b N tc) i) row →
      ¬ detectRows tc (stripTop t (stripStep t b N tc) j)
        (stripBottom t b (stripStep t b N tc) j) row) ∧
  (∀ row : ℤ,
      (∃ i, i < N ∧ detectRows tc (stripTop t (stripStep t b N tc) i)
        (stripBottom t b (stripStep t b N tc) i) row) ↔ detectRows tc t b row) ∧
  (∀ row : ℤ,
      (∃ i, i < N ∧ stripTop t (stripStep t b N tc) i ≤ row ∧
        row < stripBottom t b (stripStep t b N tc) i) ↔ (t ≤ row ∧ row < b))

/-! ### `Detection::FillLevels`

The resize, conversion and normalisation primitives are not among the
sources; level source buffers are modelled as the abstract expressions the
calls build, which captures exactly which buffer each resize reads. -/

/-- A level-size pair, as `Simd::Point<ptrdiff_t>`. -/
structure Sz where
  x : ℤ
  y : ℤ
deriving DecidableEq, Repr

/-- An image buffer content, abstracted as the expression of primitive
operations that produced it (modelled from the spec, the primitives being
external): the input image, its gray conversion, a bilinear resize of
another buffer to a size, or a histogram normalisation. -/
inductive Img where
  | input : Img
  | gray : Img → Img
  | resized : Img → Sz → Img
  | normalized : Img → Img
deriving DecidableEq, Repr

/-- `Detection::FillLevels`: convert the input to gray if needed; resize it
into level 0's source and normalise that in place when required; every
further level's source is a resize of `_levels[0].src`.  Returns the list
of per-level source buffer contents, one per level size. -/
def FillLevels (srcIsGray : Bool) (needNormalization : Bool) (sizes : List Sz) : List Img :=
  match sizes with
  | [] => []
  | s0 :: rest =>
    let src := if srcIsGray then Img.input else Img.gray Img.input
    let l0 := if needNormalization then Img.normalized (Img.resized src s0)
              else Img.resized src s0
    l0 :: rest.map (fun si => Img.resized l0 si)

/-! ### The detector state machine: `Init`, `InitLevels`, `Detect`

`SimdDetectionInit` (the native per-level evaluator bind) is external; its
success or failure is an oracle `bindOk` indexed by the model index and the
level index.  The per-level buffers, ROI shrinking and the motion-mask path
are external image primitives not among the sources and are not modelled;
the fields kept in `LevelE` are the ones the claims are about. -/

/-- One loaded cascade model (`Detection::Data`): window size, tag and
capability flags. -/
structure DataE where
  size : Sz
  tag : ℤ
  haar : Bool
  tilted : Bool
  int16 : Bool
deriving DecidableEq, Repr

/-- A default model value for out-of-range reads. -/
def DataE.default : DataE := ⟨⟨0, 0⟩, UNDEFINED_OBJECT_TAG, false, false, false⟩

/-- One pyramid level (`Detection::Level`): its scale, scan-pattern flag,
the indices of the models bound to it (in binding order) and the
aggregated buffer-need flags. -/
structure LevelE where
  scale : ℚ
  throughColumn : Bool
  hidIdxs : List ℕ
  needSqsum : Bool
  needTilted : Bool
deriving DecidableEq, Repr

/-- The detector state: registered models, the size passed to `Init`, the
normalisation flag, the pyramid levels and the worker count. -/
structure DState where
  data : List DataE
  imageSize : Sz
  needNormalization : Bool
  levels : List LevelE
  workers : ℕ
deriving DecidableEq, Repr

/-- Modelled from the spec: the scaled window `_data[i].size * scale` of the
`Simd` point headers (not among the sources), as the exact product. -/
def wsize (d : DataE) (scale : ℚ) : ℚ × ℚ := ((d.size.x : ℚ) * scale, (d.size.y : ℚ) * scale)

/-- The in-bounds test of the scale loop: the scaled window of model `i`
fits `sizeMax` and the image. -/
def fitsB (datas : List DataE) (imageSize sizeMax : Sz) (scale : ℚ) (i : ℕ) : Bool :=
  let w := wsize (datas.getD i DataE.default) scale
  decide (w.1 ≤ (sizeMax.x : ℚ) ∧ w.2 ≤ (sizeMax.y : ℚ) ∧
    w.1 ≤ (imageSize.x : ℚ) ∧ w.2 ≤ (imageSize.y : ℚ))

/-- The insertion test of the scale loop: model `i` fits and its scaled
window also reaches `sizeMin`. -/
def insertCondB (datas : List DataE) (imageSize sizeMin sizeMax : Sz) (scale : ℚ) (i : ℕ) :
    Bool :=
  fitsB datas imageSize sizeMax scale i &&
  decide ((sizeMin.x : ℚ) ≤ (wsize (datas.getD i DataE.default) scale).1 ∧
    (sizeMin.y : ℚ) ≤ (wsize (datas.getD i DataE.default) scale).2)

/-- The loop-exit condition of the scale loop, as the claim words it: every
registered model's scaled window exceeds `sizeMax` or the image bounds. -/
def allExitB (datas : List DataE) (imageSize sizeMax : Sz) (scale : ℚ) : Bool :=
  (List.range datas.length).all (fun i => !fitsB datas imageSize sizeMax scale i)

/-- The emission condition of the scale loop: at least one model's scaled
window lies within `[sizeMin, sizeMax]` and the image bounds. -/
def anyInsertB (datas : List DataE) (imageSize sizeMin sizeMax : Sz) (scale : ℚ) : Bool :=
  (List.range datas.length).any (insertCondB datas imageSize sizeMin sizeMax scale)

/-- The per-level binding loop of `InitLevels` over the inserted models:
bind each (oracle `bindOk`), pushing its hid and or-ing the flag
contributions; a failed bind stops the loop at once, keeping the partial
level.  Returns `((hidIdxs, needSqsum, needTilted, needNormalization
contribution), success)`. -/
def bindLevel (datas : List DataE) (ins : ℕ → Bool) (bindOk : ℕ → ℕ → Bool) (lvl : ℕ) :
    (List ℕ × Bool × Bool × Bool) × Bool :=
  (List.range datas.length).foldl
    (fun acc i =>
      if acc.2 = false then acc
      else if ins i = false then acc
      else if bindOk i lvl then
        let d := datas.getD i DataE.default
        ((acc.1.1 ++ [i], acc.1.2.1 || d.haar, acc.1.2.2.1 || d.tilted,
          acc.1.2.2.2 || d.haar), true)
      else (acc.1, false))
    (([], false, false, false), true)

/-- The scale loop of `InitLevels`, with fuel (the C++ loop is unbounded;
`none` means the fuel ran out before the loop exited).  The state carries
the levels built so far and the accumulated `_needNormalization`; the
result also carries the returned boolean. -/
def initLevelsLoop (datas : List DataE) (imageSize sizeMin sizeMax : Sz) (scaleFactor : ℚ)
    (bindOk : ℕ → ℕ → Bool) :
    ℕ → ℚ → List LevelE → Bool → Option (List LevelE × Bool × Bool)
  | 0, _, _, _ => none
  | fuel + 1, scale, levels, needNorm =>
    if allExitB datas imageSize sizeMax scale then
      some (levels, needNorm, !levels.isEmpty)
    else if anyInsertB datas imageSize sizeMin sizeMax scale then
      let tc := decide (scale ≤ 2)
      let bound := bindLevel datas (insertCondB datas imageSize sizeMin sizeMax scale) bindOk
        levels.length
      let lvl : LevelE := ⟨scale, tc, bound.1.1, bound.1.2.1, bound.1.2.2.1⟩
      let needNorm' := needNorm || bound.1.2.2.2
      if bound.2 then
        initLevelsLoop datas imageSize sizeMin sizeMax scaleFactor bindOk fuel
          (scale * scaleFactor) (levels ++ [lvl]) needNorm'
      else some (levels ++ [lvl], needNorm', false)
    else
      initLevelsLoop datas imageSize sizeMin sizeMax scaleFactor bindOk fuel
        (scale * scaleFactor) levels needNorm

/-- `Detection::InitLevels`: clear the levels and normalisation flag, then
run the scale loop from `scale = 1.0`. -/
def InitLevels (datas : List DataE) (imageSize sizeMin sizeMax : Sz) (scaleFactor : ℚ)
    (bindOk : ℕ → ℕ → Bool) (fuel : ℕ) : Option (List LevelE × Bool × Bool) :=
  initLevelsLoop datas imageSize sizeMin sizeMax scaleFactor bindOk fuel 1 [] false

/-- The models qualifying at a scale, in registration order. -/
def qualModels (datas : List DataE) (imageSize sizeMin sizeMax : Sz) (scale : ℚ) : List ℕ :=
  (List.range datas.length).filter (insertCondB datas imageSize sizeMin sizeMax scale)

/-- The level the claim predicts at a scale: the qualifying models bound in
order, with the aggregated flags. -/
def mkLevelAt (datas : List DataE) (imageSize sizeMin sizeMax : Sz) (scale : ℚ) : LevelE :=
  ⟨scale, decide (scale ≤ 2), qualModels datas imageSize sizeMin sizeMax scale,
   (qualModels datas imageSize sizeMin sizeMax scale).any
     (fun i => (datas.getD i DataE.default).haar),
   (qualModels datas imageSize sizeMin sizeMax scale).any
     (fun i => (datas.getD i DataE.default).tilted)⟩

/-- `Detection::InitWorkers`: clamp the requested thread number to the
hardware concurrency `hw`, and create that many workers when more than one
is requested (`_workers` stays empty otherwise). -/
def InitWorkers (hw : ℕ) (threadNumber : ℤ) : ℕ :=
  let tn := if threadNumber ≤ 0 ∨ (hw : ℤ) < threadNumber then (hw : ℤ) else threadNumber
  if 1 < tn then tn.toNat else 0

/-- `Detection::Init`: fail at once when no models are registered (leaving
the state untouched); otherwise record the image size, size the worker
pool and rebuild the levels, returning `InitLevels`'s result. -/
def Init (d : DState) (imageSize : Sz) (scaleFactor : ℚ) (sizeMin sizeMax : Sz)
    (threadNumber : ℤ) (hw : ℕ) (bindOk : ℕ → ℕ → Bool) (fuel : ℕ) :
    Option (DState × Bool) :=
  if d.data = [] then some (d, false)
  else
    match InitLevels d.data imageSize sizeMin sizeMax scaleFactor bindOk fuel with
    | none => none
    | some (lvls, nn, ok) =>
      some
        ({ d with
            imageSize := imageSize
            workers := InitWorkers hw threadNumber
            levels := lvls
            needNormalization := nn }, ok)

/-- Insertion into the tag-keyed `std::map<Tag, Objects>` of `Detect`,
kept as an association list sorted by tag, appending to an existing entry. -/
def mapAdd (m : List (ℤ × List Object)) (tag : ℤ) (objs : List Object) :
    List (ℤ × List Object) :=
  match m with
  | [] => [(tag, objs)]
  | (t, o) :: rest =>
    if tag < t then (tag, objs) :: (t, o) :: rest
    else if tag = t then (t, o ++ objs) :: rest
    else (t, o) :: mapAdd rest tag objs

/-- The candidate-gathering loops of `Detect`: for each level and each of
its hids, the candidates the native detection plus `AddObjects` produce
(oracle `cand`, indexed by level and hid position) are appended to the
map entry of the hid's model tag. -/
def detectCandidates (d : DState) (cand : ℕ → ℕ → List Object) :
    List (ℤ × List Object) :=
  (List.range d.levels.length).foldl
    (fun m i =>
      let lvl := d.levels.getD i ⟨1, false, [], false, false⟩
      (List.range lvl.hidIdxs.length).foldl
        (fun m' j =>
          let tag := (d.data.getD (lvl.hidIdxs.getD j 0) DataE.default).tag
          mapAdd m' tag (cand i j))
        m)
    []

/-- `Detection::Detect`: fail (without touching `objects`) when there are no
levels or the image size differs from the one given to `Init`; otherwise
clear `objects` and group each tag's candidates into it. -/
def Detect (d : DState) (cand : ℕ → ℕ → List Object) (srcSize : Sz)
    (objects : List Object) (groupSizeMin : ℕ) (sizeDifferenceMax : ℚ) :
    Bool × List Object :=
  if d.levels = [] ∨ srcSize ≠ d.imageSize then (false, objects)
  else
    (true,
      (detectCandidates d cand).foldl
        (fun acc p => GroupObjects acc p.2 groupSizeMin sizeDifferenceMax) [])

/-! ## Theorems -/

/-- Helper: `filterMap` with an `if ... then some ... else none` body is a
`filter` followed by a `map`. -/
theorem filterMap_ite_eq_filter_map {α β : Type} (l : List α) (p : α → Bool) (g : α → β) :
    (l.filterMap fun x => if p x then some (g x) else none) = (l.filter p).map g := by
  induction l with
  | nil => rfl
  | cons a l ih =>
    by_cases h : p a = true
    · simp [List.filterMap_cons, List.filter_cons, h, ih]
    · simp [List.filterMap_cons, List.filter_cons, h, ih]

/-- C3: the similarity predicate holds iff all four absolute edge differences
are at most `sizeDifferenceMax * 0.5 * (min width + min height)`, and it is
symmetric: `Similar(a, b) == Similar(b, a)`. -/
theorem similar_iff_and_symm (sdm : ℚ) (a b : Object) :
    (Similar sdm a b = true ↔
      (|a.rect.left - b.rect.left| ≤
          sdm * (1/2) * (min a.rect.Width b.rect.Width + min a.rect.Height b.rect.Height) ∧
       |a.rect.top - b.rect.top| ≤
          sdm * (1/2) * (min a.rect.Width b.rect.Width + min a.rect.Height b.rect.Height) ∧
       |a.rect.right - b.rect.right| ≤
          sdm * (1/2) * (min a.rect.Width b.rect.Width + min a.rect.Height b.rect.Height) ∧
       |a.rect.bottom - b.rect.bottom| ≤
          sdm * (1/2) * (min a.rect.Width b.rect.Width + min a.rect.Height b.rect.Height))) ∧
    Similar sdm a b = Similar sdm b a := by
  constructor
  · simp only [Similar, Bool.and_eq_true, decide_eq_true_eq]
    constructor
    · rintro ⟨⟨⟨h1, h2⟩, h3⟩, h4⟩
      refine ⟨?_, ?_, ?_, ?_⟩ <;> linarith
    · rintro ⟨h1, h2, h3, h4⟩
      refine ⟨⟨⟨?_, ?_⟩, ?_⟩, ?_⟩ <;> linarith
  · simp only [Similar]
    rw [min_comm b.rect.Width a.rect.Width, min_comm b.rect.Height a.rect.Height,
      abs_sub_comm b.rect.left a.rect.left, abs_sub_comm b.rect.top a.rect.top,
      abs_sub_comm b.rect.right a.rect.right, abs_sub_comm b.rect.bottom a.rect.bottom]

/-- C2: a cluster `i` is emitted by the suppression pass of `GroupObjects`
iff its weight reaches `groupSizeMin` and no other cluster `j` with weight
at least `groupSizeMin` both dominates it by weight
(`weight_j > max(3, weight_i)` or `weight_i < 3`) and contains its
rectangle within the `Round(sizeDifferenceMax * {width,height}_j)` margins;
the output consists exactly of the emitted clusters, in order. -/
theorem groupObjects_emit_iff (buffer : List Object) (gmin : ℕ) (sdm : ℚ) (i : ℕ) :
    (emitB buffer gmin sdm i = true ↔ EmitSpec buffer gmin sdm i) ∧
    suppressPass buffer gmin sdm =
      ((List.range buffer.length).filter (emitB buffer gmin sdm)).map
        (fun k => buffer.getD k Object.default) := by
  constructor
  · have hsc : ∀ j, suppressCond buffer gmin sdm i j = true ↔
        (¬(j = i ∨ (buffer.getD j Object.default).weight < (gmin : ℤ)) ∧
         (i ≠ j ∧
          (max 3 (buffer.getD i Object.default).weight <
              (buffer.getD j Object.default).weight ∨
            (buffer.getD i Object.default).weight < 3) ∧
          ((buffer.getD j Object.default).rect.left -
              Round ((buffer.getD j Object.default).rect.Width * sdm) ≤
              (buffer.getD i Object.default).rect.left ∧
           (buffer.getD j Object.default).rect.top -
              Round ((buffer.getD j Object.default).rect.Height * sdm) ≤
              (buffer.getD i Object.default).rect.top ∧
           (buffer.getD i Object.default).rect.right ≤
              (buffer.getD j Object.default).rect.right +
                Round ((buffer.getD j Object.default).rect.Width * sdm) ∧
           (buffer.getD i Object.default).rect.bottom ≤
              (buffer.getD j Object.default).rect.bottom +
                Round ((buffer.getD j Object.default).rect.Height * sdm)))) := by
      intro j
      simp only [suppressCond]
      split_ifs with h
      · simp only [Bool.false_eq_true, false_iff, not_and]
        intro hc
        exact absurd h hc.elim
      · simp only [decide_eq_true_eq]
        tauto
    simp only [emitB, Bool.and_eq_true, decide_eq_true_eq, Bool.not_eq_true',
      EmitSpec]
    constructor
    · rintro ⟨hw, hany⟩
      refine ⟨hw, ?_⟩
      rintro ⟨j, hj, hji, hwj, hdom, hc1, hc2, hc3, hc4⟩
      have : (List.range buffer.length).any (suppressCond buffer gmin sdm i) = true := by
        refine List.any_eq_true.2 ⟨j, List.mem_range.2 hj, ?_⟩
        refine (hsc j).2 ⟨?_, Ne.symm hji, hdom, ?_, ?_, ?_, ?_⟩
        · push_neg
          exact ⟨hji, hwj⟩
        · rwa [mul_comm] at hc1
        · rwa [mul_comm] at hc2
        · rwa [mul_comm] at hc3
        · rwa [mul_comm] at hc4
      rw [this] at hany
      exact absurd hany (by decide)
    · rintro ⟨hw, hnex⟩
      refine ⟨hw, ?_⟩
      by_contra hany
      rw [Bool.not_eq_false, List.any_eq_true] at hany
      obtain ⟨j, hjm, hcond⟩ := hany
      obtain ⟨hng, hij, hdom, hc1, hc2, hc3, hc4⟩ := (hsc j).1 hcond
      push_neg at hng
      exact hnex ⟨j, List.mem_range.1 hjm, Ne.symm hij, hng.2, hdom,
        by rwa [mul_comm sdm] , by rwa [mul_comm sdm], by rwa [mul_comm sdm],
        by rwa [mul_comm sdm]⟩
  · exact filterMap_ite_eq_filter_map _ _ _

/-- C5 (counterexample): a single representative object of weight
`groupSizeMin = 3` is NOT reproduced by `GroupObjects` — the
`src.size() < groupSizeMin` guard makes the call a no-op, so no object with
the same rectangle and weight is emitted. -/
theorem groupObjects_single_not_fixed_point :
    ¬ ∃ o ∈ GroupObjects [] [⟨⟨0, 0, 10, 10⟩, 3, 0⟩] 3 (1/5),
        o.rect = ⟨0, 0, 10, 10⟩ ∧ o.weight = 3 := by
  have h : GroupObjects [] [⟨⟨0, 0, 10, 10⟩, 3, 0⟩] 3 (1/5) = [] := rfl
  rw [h]
  rintro ⟨o, ho, -⟩
  exact absurd ho (List.not_mem_nil o)

/-- C5 (amended): the fixed point holds exactly in the one case the guard
admits, `groupSizeMin = 1`: grouping a single representative of weight `1`
with any `sizeDifferenceMax` emits an object with the same rectangle and
the same weight (and tag). -/
theorem groupObjects_single_fixed_point (dst : List Object) (o : Object) (sdm : ℚ)
    (h : o.weight = 1) :
    GroupObjects dst [o] 1 sdm = dst ++ [⟨o.rect, 1, o.tag⟩] := by
  have hp : Partition [o] sdm = ([0], 1) := rfl
  have hr1 : List.range 1 = [0] := rfl
  have hacc : accumulate [o] [0] 1 = [⟨o.rect, 1, o.tag⟩] := by
    simp [accumulate, accumStep, hr1, Rect.add, Rect.zero, Object.default,
      List.replicate, List.getD]
  have havg : average [⟨o.rect, 1, o.tag⟩] = [⟨o.rect, 1, o.tag⟩] := by
    simp [average, Rect.divQ]
  have hsup : suppressPass [⟨o.rect, 1, o.tag⟩] 1 sdm = [⟨o.rect, 1, o.tag⟩] := by
    have he : emitB [⟨o.rect, 1, o.tag⟩] 1 sdm 0 = true := by
      simp [emitB, suppressCond, hr1, List.getD]
    simp [suppressPass, hr1, he, List.getD]
  simp only [GroupObjects, List.length_cons, List.length_nil]
  rw [if_neg (by omega), hp]
  simp only [hacc, havg, hsup]

/-- C6 (counterexample): with three pyramid levels, level 2's source is not
a bilinear downscale of level 1's source — `FillLevels` resizes it from
level 0's source. -/
theorem fillLevels_not_from_previous :
    (FillLevels true false [⟨8, 8⟩, ⟨4, 4⟩, ⟨2, 2⟩]).getD 2 Img.input ≠
      Img.resized ((FillLevels true false [⟨8, 8⟩, ⟨4, 4⟩, ⟨2, 2⟩]).getD 1 Img.input)
        ⟨2, 2⟩ := by
  decide

/-- C6 (amended): in `FillLevels`, every level `i ≥ 1`'s source buffer is a
bilinear downscale of the FIRST level's refreshed source (`_levels[0].src`,
after its optional normalisation), not of level `i-1`'s; only level 0 is
resized directly from the (gray-converted) input image. -/
theorem fillLevels_cascade (srcIsGray needNormalization : Bool) (sizes : List Sz) (i : ℕ)
    (h1 : 1 ≤ i) (h2 : i < sizes.length) :
    (FillLevels srcIsGray needNormalization sizes).getD i Img.input =
      Img.resized ((FillLevels srcIsGray needNormalization sizes).getD 0 Img.input)
        (sizes.getD i ⟨0, 0⟩) ∧
    (FillLevels srcIsGray needNormalization sizes).getD 0 Img.input =
      (if needNormalization then
        Img.normalized (Img.resized (if srcIsGray then Img.input else Img.gray Img.input)
          (sizes.getD 0 ⟨0, 0⟩))
       else Img.resized (if srcIsGray then Img.input else Img.gray Img.input)
          (sizes.getD 0 ⟨0, 0⟩)) := by
  match sizes with
  | [] => simp at h2
  | s0 :: rest =>
    match i with
    | 0 => omega
    | m + 1 =>
      have hm : m < rest.length := by
        simpa using h2
      constructor
      · simp only [FillLevels, List.getD_cons_succ, List.getD_cons_zero]
        rw [List.getD_eq_getElem _ _ (by simpa using hm), List.getElem_map,
          List.getD_eq_getElem _ _ hm]
      · simp [FillLevels]

/-- C7: `Detect` returns `false` exactly when the detector has no levels or
the input size differs from the one given to `Init`; in that case the
output object list is returned untouched (otherwise `Detect` returns
`true`). -/
theorem detect_failure_guard (d : DState) (cand : ℕ → ℕ → List Object) (srcSize : Sz)
    (objects : List Object) (groupSizeMin : ℕ) (sdm : ℚ) :
    ((Detect d cand srcSize objects groupSizeMin sdm).1 = false ↔
      (d.levels = [] ∨ srcSize ≠ d.imageSize)) ∧
    ((Detect d cand srcSize objects groupSizeMin sdm).2 = objects ∨
      (Detect d cand srcSize objects groupSizeMin sdm).1 = true) := by
  unfold Detect
  by_cases h : d.levels = [] ∨ srcSize ≠ d.imageSize
  · rw [if_pos h]
    exact ⟨⟨fun _ => h, fun _ => rfl⟩, Or.inl rfl⟩
  · rw [if_neg h]
    exact ⟨⟨fun hc => Bool.noConfusion hc, fun hc => absurd hc h⟩, Or.inr rfl⟩

/-- C8 (counterexample): when the native per-level evaluator bind fails,
`InitLevels` returns `false` but keeps the already-pushed (partial) level,
so a subsequent `Detect` on the same image size returns `true`, not
`false`: the failed `Init` does not make the detector invalid. -/
theorem init_failure_detect_true :
    Init ⟨[⟨⟨5, 5⟩, 0, false, false, false⟩], ⟨0, 0⟩, false, [], 0⟩ ⟨10, 10⟩ 2 ⟨0, 0⟩
        ⟨1000, 1000⟩ 1 1 (fun _ _ => false) 5 =
      some (⟨[⟨⟨5, 5⟩, 0, false, false, false⟩], ⟨10, 10⟩, false,
        [⟨1, true, [], false, false⟩], 0⟩, false) ∧
    (Detect ⟨[⟨⟨5, 5⟩, 0, false, false, false⟩], ⟨10, 10⟩, false,
        [⟨1, true, [], false, false⟩], 0⟩ (fun _ _ => []) ⟨10, 10⟩ [] 3 (1/5)).1 = true := by
  constructor
  · with_unfolding_all decide
  · rfl

/-- C8 (amended): after an `Init` call that returns `false`, a subsequent
`Detect` returns `true` exactly when the failed `Init` left a non-empty
level list and the image size matches — so `Detect` stays invalid after a
no-model failure (which leaves the state unchanged) or a zero-level
failure, but not after a bind failure that already pushed a level.  -/
theorem init_failure_detect (d : DState) (imageSize : Sz) (scaleFactor : ℚ)
    (sizeMin sizeMax : Sz) (threadNumber : ℤ) (hw : ℕ) (bindOk : ℕ → ℕ → Bool) (fuel : ℕ)
    (d' : DState)
    (h : Init d imageSize scaleFactor sizeMin sizeMax threadNumber hw bindOk fuel =
      some (d', false)) :
    (d.data = [] → d' = d) ∧
    ∀ (cand : ℕ → ℕ → List Object) (srcSize : Sz) (objects : List Object)
      (groupSizeMin : ℕ) (sdm : ℚ),
      ((Detect d' cand srcSize objects groupSizeMin sdm).1 = true ↔
        (d'.levels ≠ [] ∧ srcSize = d'.imageSize)) := by
  constructor
  · intro hd
    unfold Init at h
    rw [if_pos hd] at h
    simp only [Option.some.injEq, Prod.mk.injEq] at h
    exact h.1.symm
  · intro cand srcSize objects g m
    unfold Detect
    by_cases hc : d'.levels = [] ∨ srcSize ≠ d'.imageSize
    · rw [if_pos hc]
      constructor
      · intro hfalse
        exact absurd hfalse Bool.noConfusion
      · rintro ⟨h1, h2⟩
        rcases hc with hc | hc
        · exact absurd hc h1
        · exact absurd h2 hc
    · rw [if_neg hc]
      push_neg at hc
      exact ⟨fun _ => hc, fun _ => rfl⟩

/-- Helper: the strip step is positive. -/
theorem stripStep_pos (t b : ℤ) (N : ℕ) (tc : Bool) : 0 < stripStep t b N tc := by
  unfold stripStep
  cases tc <;> simp <;> omega

/-- Helper: the routine stride divides the strip step (for the
`throughColumn` variants the step was snapped to even). -/
theorem stride_dvd_stripStep (t b : ℤ) (N : ℕ) (tc : Bool) :
    stride tc ∣ (stripStep t b N tc : ℤ) := by
  cases tc
  · simp [stride]
  · simp only [stride, if_pos rfl, stripStep]
    have h : 2 ∣ ((b - t).toNat / N + 1) + ((b - t).toNat / N + 1) % 2 := by omega
    exact_mod_cast Int.natCast_dvd_natCast.2 h

/-- Helper: `N` strips of the chosen step cover more than `b - t` rows. -/
theorem stripStep_cover (t b : ℤ) (N : ℕ) (tc : Bool) (hN : 0 < N) (htb : t ≤ b) :
    b - t < (N : ℤ) * stripStep t b N tc := by
  set D : ℕ := (b - t).toNat with hD
  have hDz : (D : ℤ) = b - t := Int.toNat_of_nonneg (by omega)
  have hbase : D < N * (D / N + 1) := by
    have h1 : D / N * N + D % N = D := Nat.div_add_mod' D N
    have h2 : D % N < N := Nat.mod_lt D hN
    have h3 : N * (D / N + 1) = D / N * N + N := by ring
    omega
  have hstep : D / N + 1 ≤ stripStep t b N tc := by
    unfold stripStep
    cases tc <;> simp <;> omega
  have : D < N * stripStep t b N tc := lt_of_lt_of_le hbase (Nat.mul_le_mul_left N hstep)
  calc b - t = (D : ℤ) := hDz.symm
    _ < ((N * stripStep t b N tc : ℕ) : ℤ) := by exact_mod_cast this
    _ = (N : ℤ) * stripStep t b N tc := by push_cast; ring

/-- Helper: the per-row characterisation of the strip split, generic in the
stride `d` dividing the step. -/
theorem strip_cover_core (t b : ℤ) (N : ℕ) (step : ℕ) (d : ℤ) (hs : 0 < step)
    (hdvd : d ∣ (step : ℤ)) (hcov : b - t < (N : ℤ) * step) (row : ℤ) :
    (∃ i, i < N ∧ stripTop t step i ≤ row ∧ row < stripBottom t b step i ∧
        (row - stripTop t step i) % d = 0) ↔
      (t ≤ row ∧ row < b ∧ (row - t) % d = 0) := by
  constructor
  · rintro ⟨i, hiN, h1, h2, h3⟩
    have hib : row < b := lt_of_lt_of_le h2 (min_le_right _ _)
    have hit : t ≤ row := by
      have : (0 : ℤ) ≤ (i : ℤ) * step := by positivity
      simp only [stripTop] at h1
      linarith
    refine ⟨hit, hib, ?_⟩
    have hd1 : d ∣ row - stripTop t step i := Int.dvd_of_emod_eq_zero h3
    have hd2 : d ∣ (i : ℤ) * step := Dvd.dvd.mul_left hdvd i
    have heq : row - t = (row - stripTop t step i) + (i : ℤ) * step := by
      simp only [stripTop]; ring
    rw [heq]
    exact Int.emod_eq_zero_of_dvd (dvd_add hd1 hd2)
  · rintro ⟨h1, h2, h3⟩
    set o : ℕ := (row - t).toNat with ho
    have hoz : (o : ℤ) = row - t := Int.toNat_of_nonneg (by omega)
    refine ⟨o / step, ?_, ?_, ?_, ?_⟩
    · rw [Nat.div_lt_iff_lt_mul hs]
      have : (o : ℤ) < (N : ℤ) * step := by omega
      exact_mod_cast this
    · have hle : o / step * step ≤ o := Nat.div_mul_le_self o step
      have : ((o / step * step : ℕ) : ℤ) ≤ (o : ℤ) := by exact_mod_cast hle
      simp only [stripTop]
      push_cast at this ⊢
      omega
    · have hmod := Nat.div_add_mod o step
      rw [Nat.mul_comm step (o / step)] at hmod
      have hltm : o % step < step := Nat.mod_lt o hs
      have hlt : o < o / step * step + step := by omega
      have hz : ((o : ℤ)) < ((o / step : ℕ) : ℤ) * step + step := by exact_mod_cast hlt
      simp only [stripBottom, stripTop, lt_min_iff]
      constructor
      · omega
      · exact h2
    · have hd1 : d ∣ row - t := Int.dvd_of_emod_eq_zero h3
      have hd2 : d ∣ ((o / step : ℕ) : ℤ) * step := Dvd.dvd.mul_left hdvd _
      have heq : row - stripTop t step (o / step) = (row - t) - ((o / step : ℕ) : ℤ) * step := by
        simp only [stripTop]; ring
      rw [heq]
      exact Int.emod_eq_zero_of_dvd (dvd_sub hd1 hd2)

/-- Helper: two distinct strips process disjoint row sets. -/
theorem strip_disjoint (t b : ℤ) (step : ℕ) (tc : Bool) (i j : ℕ) (hij : i < j) (row : ℤ)
    (hi : detectRows tc (stripTop t step i) (stripBottom t b step i) row)
    (hj : detectRows tc (stripTop t step j) (stripBottom t b step j) row) : False := by
  obtain ⟨-, h2, -⟩ := hi
  obtain ⟨h4, -, -⟩ := hj
  have hij1 : (i : ℤ) + 1 ≤ (j : ℤ) := by exact_mod_cast hij
  have hmul : ((i : ℤ) + 1) * step ≤ (j : ℤ) * step :=
    mul_le_mul_of_nonneg_right hij1 (by positivity)
  simp only [stripBottom, stripTop, lt_min_iff] at h2
  simp only [stripTop] at h4
  nlinarith [h2.1]

/-- Helper: the overlay fold over `M` strip writes equals the pointwise
`if some strip processed the row` function. -/
theorem overlay_foldl {α : Type} (f : ℤ → α) (z : α) (P : ℕ → ℤ → Prop)
    [inst : ∀ i r, Decidable (P i r)] (M : ℕ) :
    ((List.range M).foldl (fun g i => fun row => if P i row then f row else g row)
        (fun _ => z)) =
      fun row => if ∃ i, i < M ∧ P i row then f row else z := by
  induction M with
  | zero =>
    funext row
    simp
  | succ n ih =>
    funext row
    rw [List.range_succ, List.foldl_append, List.foldl_cons, List.foldl_nil, ih]
    by_cases hn : P n row
    · simp only [if_pos hn]
      rw [if_pos ⟨n, Nat.lt_succ_self n, hn⟩]
    · simp only [if_neg hn]
      by_cases hex : ∃ i, i < n ∧ P i row
      · obtain ⟨i, hi, hp⟩ := hex
        rw [if_pos ⟨i, hi, hp⟩, if_pos ⟨i, Nat.lt_succ_of_lt hi, hp⟩]
      · rw [if_neg hex, if_neg ?_]
        rintro ⟨i, hi, hp⟩
        rcases Nat.lt_succ_iff_lt_or_eq.1 hi with hi | rfl
        · exact hex ⟨i, hi, hp⟩
        · exact hn hp

/-- C1: for `0 < N` workers and a valid row range `[t, b)`, the `N` strips
of `Hid::Detect` (step `(b - t)/N + 1`, snapped to even when
`throughColumn`) are pairwise disjoint, their processed row sets are
exactly the synchronous call's row set, the plain strip intervals cover
exactly `[t, b)`, and running the detection routine strip by strip writes
the same output bitmap as one synchronous call. -/
theorem hid_detect_strip_equiv {α : Type} (t b : ℤ) (N : ℕ) (tc : Bool) (f : ℤ → α) (z : α)
    (hN : 0 < N) (htb : t ≤ b) :
    StripSplitSpec t b N tc ∧ runStrips f z tc t b N = runDetect f z tc t b := by
  have hs : 0 < stripStep t b N tc := stripStep_pos t b N tc
  have hdvd : stride tc ∣ (stripStep t b N tc : ℤ) := stride_dvd_stripStep t b N tc
  have hcov : b - t < (N : ℤ) * stripStep t b N tc := stripStep_cover t b N tc hN htb
  have hdisj : ∀ i j, i < N → j < N → i ≠ j → ∀ row : ℤ,
      detectRows tc (stripTop t (stripStep t b N tc) i)
        (stripBottom t b (stripStep t b N tc) i) row →
      ¬ detectRows tc (stripTop t (stripStep t b N tc) j)
        (stripBottom t b (stripStep t b N tc) j) row := by
    intro i j _ _ hij row hi hj
    rcases Nat.lt_or_ge i j with h | h
    · exact strip_disjoint t b _ tc i j h row hi hj
    · exact strip_disjoint t b _ tc j i (lt_of_le_of_ne h (Ne.symm hij)) row hj hi
  have hcore := strip_cover_core t b N (stripStep t b N tc) (stride tc) hs hdvd hcov
  have hrows : ∀ row : ℤ,
      (∃ i, i < N ∧ detectRows tc (stripTop t (stripStep t b N tc) i)
        (stripBottom t b (stripStep t b N tc) i) row) ↔ detectRows tc t b row := by
    intro row
    unfold detectRows
    exact hcore row
  refine ⟨⟨hdisj, hrows, ?_⟩, ?_⟩
  · intro row
    have hone := strip_cover_core t b N (stripStep t b N tc) 1 hs (one_dvd _)
      hcov row
    simpa [Int.emod_one] using hone
  · unfold runStrips runDetect
    rw [overlay_foldl f z
      (fun i row => detectRows tc (stripTop t (stripStep t b N tc) i)
        (stripBottom t b (stripStep t b N tc) i) row) N]
    funext row
    by_cases h : detectRows tc t b row
    · rw [if_pos ((hrows row).2 h), if_pos h]
    · rw [if_neg (fun hc => h ((hrows row).1 hc)), if_neg h]

/-- Helper: the binding fold of `bindLevel`, when every native bind
succeeds, appends exactly the inserted indices and or-accumulates their
flags. -/
theorem bindLevel_fold_ok (datas : List DataE) (ins : ℕ → Bool) (lvl : ℕ)
    (l : List ℕ) (h0 : List ℕ) (b1 b2 b3 : Bool) :
    (l.foldl
      (fun acc i =>
        if acc.2 = false then acc
        else if ins i = false then acc
        else if (fun _ _ => true : ℕ → ℕ → Bool) i lvl then
          let d := datas.getD i DataE.default
          ((acc.1.1 ++ [i], acc.1.2.1 || d.haar, acc.1.2.2.1 || d.tilted,
            acc.1.2.2.2 || d.haar), true)
        else (acc.1, false))
      ((h0, b1, b2, b3), true)) =
      ((h0 ++ l.filter ins,
        b1 || (l.filter ins).any (fun i => (datas.getD i DataE.default).haar),
        b2 || (l.filter ins).any (fun i => (datas.getD i DataE.default).tilted),
        b3 || (l.filter ins).any (fun i => (datas.getD i DataE.default).haar)), true) := by
  induction l generalizing h0 b1 b2 b3 with
  | nil => simp
  | cons a l ih =>
    rw [List.foldl_cons]
    by_cases ha : ins a = true
    · have hstep : (if ((h0, b1, b2, b3), true).2 = false then ((h0, b1, b2, b3), true)
          else if ins a = false then ((h0, b1, b2, b3), true)
          else if (fun _ _ => true : ℕ → ℕ → Bool) a lvl then
            let d := datas.getD a DataE.default
            ((((h0, b1, b2, b3), true).1.1 ++ [a],
              (((h0, b1, b2, b3), true)).1.2.1 || d.haar,
              (((h0, b1, b2, b3), true)).1.2.2.1 || d.tilted,
              (((h0, b1, b2, b3), true)).1.2.2.2 || d.haar), true)
          else ((((h0, b1, b2, b3), true)).1, false)) =
          ((h0 ++ [a], b1 || (datas.getD a DataE.default).haar,
            b2 || (datas.getD a DataE.default).tilted,
            b3 || (datas.getD a DataE.default).haar), true) := by
        simp [ha]
      rw [hstep, ih]
      simp [List.filter_cons, ha, Bool.or_assoc, List.append_assoc]
    · rw [Bool.not_eq_true] at ha
      have hstep : (if ((h0, b1, b2, b3), true).2 = false then ((h0, b1, b2, b3), true)
          else if ins a = false then ((h0, b1, b2, b3), true)
          else if (fun _ _ => true : ℕ → ℕ → Bool) a lvl then
            let d := datas.getD a DataE.default
            ((((h0, b1, b2, b3), true).1.1 ++ [a],
              (((h0, b1, b2, b3), true)).1.2.1 || d.haar,
              (((h0, b1, b2, b3), true)).1.2.2.1 || d.tilted,
              (((h0, b1, b2, b3), true)).1.2.2.2 || d.haar), true)
          else ((((h0, b1, b2, b3), true)).1, false)) = ((h0, b1, b2, b3), true) := by
        simp [ha]
      rw [hstep, ih]
      simp [List.filter_cons, ha]

/-- Helper: `bindLevel` under an always-succeeding bind oracle binds
exactly the inserted models, in order, with the aggregated flags. -/
theorem bindLevel_all_ok (datas : List DataE) (ins : ℕ → Bool) (lvl : ℕ) :
    bindLevel datas ins (fun _ _ => true) lvl =
      (((List.range datas.length).filter ins,
        ((List.range datas.length).filter ins).any
          (fun i => (datas.getD i DataE.default).haar),
        ((List.range datas.length).filter ins).any
          (fun i => (datas.getD i DataE.default).tilted),
        ((List.range datas.length).filter ins).any
          (fun i => (datas.getD i DataE.default).haar)), true) := by
  unfold bindLevel
  rw [bindLevel_fold_ok datas ins lvl (List.range datas.length) [] false false false]
  simp

/-- Helper: one step of the scale loop under an always-succeeding bind
oracle, characterised over the whole remaining run: the result appends, for
every scale `f^k` visited before the first all-out scale `f^K`, the level
of the qualifying models whenever at least one model qualifies. -/
theorem initLevelsLoop_spec (datas : List DataE) (imgSz szMin szMax : Sz) (f : ℚ)
    (fuel : ℕ) :
    ∀ (k0 : ℕ) (L0 : List LevelE) (nn0 : Bool) (lvls : List LevelE) (nn ok : Bool),
      initLevelsLoop datas imgSz szMin szMax f (fun _ _ => true) fuel (f ^ k0) L0 nn0 =
        some (lvls, nn, ok) →
      ∃ K, k0 ≤ K ∧
        (∀ k, k0 ≤ k → k < K → allExitB datas imgSz szMax (f ^ k) = false) ∧
        allExitB datas imgSz szMax (f ^ K) = true ∧
        lvls = L0 ++ ((List.range' k0 (K - k0)).filter
            (fun k => anyInsertB datas imgSz szMin szMax (f ^ k))).map
            (fun k => mkLevelAt datas imgSz szMin szMax (f ^ k)) ∧
        ok = !lvls.isEmpty := by
  induction fuel with
  | zero =>
    intro k0 L0 nn0 lvls nn ok h
    exact absurd h (by simp [initLevelsLoop])
  | succ m ih =>
    intro k0 L0 nn0 lvls nn ok h
    rw [initLevelsLoop] at h
    by_cases hexit : allExitB datas imgSz szMax (f ^ k0) = true
    · rw [if_pos hexit] at h
      simp only [Option.some.injEq, Prod.mk.injEq] at h
      refine ⟨k0, le_refl k0, by omega, hexit, ?_, ?_⟩
      · rw [← h.1]
        simp
      · rw [← h.2.2, ← h.1]
    · rw [if_neg hexit] at h
      rw [Bool.not_eq_true] at hexit
      by_cases hins : anyInsertB datas imgSz szMin szMax (f ^ k0) = true
      · rw [if_pos hins] at h
        simp only [bindLevel_all_ok] at h
        rw [← pow_succ f k0] at h
        obtain ⟨K, hK0, hK1, hK2, hK3, hK4⟩ := ih (k0 + 1) _ _ lvls nn ok h
        refine ⟨K, by omega, ?_, hK2, ?_, hK4⟩
        · intro k hk1 hk2
          rcases Nat.eq_or_lt_of_le hk1 with rfl | hlt
          · exact hexit
          · exact hK1 k hlt hk2
        · rw [hK3]
          have hcount : K - k0 = (K - (k0 + 1)) + 1 := by omega
          rw [hcount, List.range'_succ, List.filter_cons, if_pos hins, List.map_cons]
          simp [mkLevelAt, qualModels]
      · rw [if_neg hins] at h
        rw [← pow_succ f k0] at h
        rw [Bool.not_eq_true] at hins
        obtain ⟨K, hK0, hK1, hK2, hK3, hK4⟩ := ih (k0 + 1) _ _ lvls nn ok h
        refine ⟨K, by omega, ?_, hK2, ?_, hK4⟩
        · intro k hk1 hk2
          rcases Nat.eq_or_lt_of_le hk1 with rfl | hlt
          · exact hexit
          · exact hK1 k hlt hk2
        · rw [hK3]
          have hcount : K - k0 = (K - (k0 + 1)) + 1 := by omega
          rw [hcount, List.range'_succ, List.filter_cons, if_neg (by simp [hins])]

/-- C9: with `scaleFactor > 1` and all native binds succeeding, the scale
loop of `InitLevels` visits the scales `f^0 = 1, f^1, f^2, ...`, stops at
the first scale where every model's scaled window exceeds `sizeMax` or the
image bounds (checked before emission), emits a level at a visited scale
iff at least one model qualifies there, binds exactly the qualifying
models to it, and the emitted levels' scales are strictly increasing. -/
theorem initLevels_scale_emission (datas : List DataE) (imgSz szMin szMax : Sz) (f : ℚ)
    (fuel : ℕ) (lvls : List LevelE) (nn ok : Bool) (hf : 1 < f)
    (h : InitLevels datas imgSz szMin szMax f (fun _ _ => true) fuel = some (lvls, nn, ok)) :
    ∃ K, (∀ k, k < K → allExitB datas imgSz szMax (f ^ k) = false) ∧
      allExitB datas imgSz szMax (f ^ K) = true ∧
      lvls = ((List.range K).filter
          (fun k => anyInsertB datas imgSz szMin szMax (f ^ k))).map
          (fun k => mkLevelAt datas imgSz szMin szMax (f ^ k)) ∧
      ok = !lvls.isEmpty ∧
      ∀ a b, a < b → b < lvls.length →
        (lvls.getD a ⟨1, false, [], false, false⟩).scale <
          (lvls.getD b ⟨1, false, [], false, false⟩).scale := by
  unfold InitLevels at h
  rw [show (1 : ℚ) = f ^ 0 from (pow_zero f).symm] at h
  obtain ⟨K, -, hK1, hK2, hK3, hK4⟩ :=
    initLevelsLoop_spec datas imgSz szMin szMax f fuel 0 [] false lvls nn ok h
  rw [Nat.sub_zero] at hK3
  rw [← List.range_eq_range'] at hK3
  refine ⟨K, fun k hk => hK1 k (Nat.zero_le k) hk, hK2, hK3, hK4, ?_⟩
  intro a b hab hb
  set ks := (List.range K).filter (fun k => anyInsertB datas imgSz szMin szMax (f ^ k))
    with hks
  have hlen : lvls.length = ks.length := by rw [hK3]; simp
  have hpw : List.Pairwise (· < ·) ks :=
    (List.pairwise_lt_range K).sublist (List.filter_sublist _)
  have hblen : b < ks.length := hlen ▸ hb
  have halen : a < ks.length := lt_trans hab hblen
  have hkab : ks.get ⟨a, halen⟩ < ks.get ⟨b, hblen⟩ :=
    List.pairwise_iff_get.1 hpw ⟨a, halen⟩ ⟨b, hblen⟩ hab
  have hga : lvls.getD a ⟨1, false, [], false, false⟩ =
      mkLevelAt datas imgSz szMin szMax (f ^ ks.get ⟨a, halen⟩) := by
    rw [hK3]
    rw [List.getD_eq_getElem _ _ (by simpa using halen)]
    simp [List.getElem_map, List.get_eq_getElem]
  have hgb : lvls.getD b ⟨1, false, [], false, false⟩ =
      mkLevelAt datas imgSz szMin szMax (f ^ ks.get ⟨b, hblen⟩) := by
    rw [hK3]
    rw [List.getD_eq_getElem _ _ (by simpa using hblen)]
    simp [List.getElem_map, List.get_eq_getElem]
  rw [hga, hgb]
  show f ^ ks.get ⟨a, halen⟩ < f ^ ks.get ⟨b, hblen⟩
  exact pow_lt_pow_right₀ hf hkab

/-- Helper: a nonnegative parent entry only occurs at an in-range index. -/
theorem pf_nonneg_lt_length (n : Nodes) (k : ℕ) (h : 0 ≤ pf n k) :
    k < n.parent.length := by
  by_contra hk
  push_neg at hk
  have he : pf n k = -1 := List.getD_eq_default _ _ hk
  omega

/-- Helper: reading a parent after a parent write. -/
theorem pf_setParent (n : Nodes) (k r m : ℕ) :
    pf (setParent n k r) m = if m = k ∧ k < n.parent.length then (r : ℤ) else pf n m := by
  unfold pf setParent
  simp only [List.getD_eq_getElem?_getD, List.getElem?_set]
  by_cases hmk : m = k
  · subst hmk
    by_cases hk : m < n.parent.length
    · simp [hk]
    · simp [hk, List.getElem?_eq_none (by omega : n.parent.length ≤ m)]
  · rw [if_neg (fun h => hmk h.symm)]
    simp [hmk]

/-- Helper: the parent step after a parent write. -/
theorem pstep_setParent (n : Nodes) (k r m : ℕ) :
    pstep (setParent n k r) m = if m = k ∧ k < n.parent.length then r else pstep n m := by
  unfold pstep
  rw [pf_setParent]
  split_ifs <;> simp

/-- Helper: root-ness after a parent write. -/
theorem isRootN_setParent (n : Nodes) (k r m : ℕ) :
    IsRootN (setParent n k r) m ↔ ¬(m = k ∧ k < n.parent.length) ∧ IsRootN n m := by
  unfold IsRootN
  rw [pf_setParent]
  split_ifs with h
  · simp [h.1, h.2, show ¬((r : ℤ) < 0) from not_lt.2 (Int.natCast_nonneg r)]
  · simp [h]

/-- Helper: rank writes do not change parents. -/
theorem pf_setRank (n : Nodes) (k : ℕ) (v : ℤ) (m : ℕ) : pf (setRank n k v) m = pf n m := rfl

/-- Helper: parent writes do not change ranks. -/
theorem rf_setParent (n : Nodes) (k r m : ℕ) : rf (setParent n k r) m = rf n m := rfl

/-- Helper: reading a rank after a rank write. -/
theorem rf_setRank (n : Nodes) (k : ℕ) (v : ℤ) (m : ℕ) :
    rf (setRank n k v) m = if m = k ∧ k < n.rank.length then v else rf n m := by
  unfold rf setRank
  simp only [List.getD_eq_getElem?_getD, List.getElem?_set]
  by_cases hmk : m = k
  · subst hmk
    by_cases hk : m < n.rank.length
    · simp [hk]
    · simp [hk, List.getElem?_eq_none (by omega : n.rank.length ≤ m)]
  · rw [if_neg (fun h => hmk h.symm)]
    simp [hmk]

/-- Helper: a shorter chain prefix is still a chain. -/
theorem chainOk_mono (n : Nodes) (i : ℕ) {k k' : ℕ} (h : k' ≤ k) (hc : ChainOk n i k) :
    ChainOk n i k' :=
  fun m hm => hc m (lt_of_lt_of_le hm h)

/-- Helper: dropping the first node of a chain. -/
theorem chainOk_shift (n : Nodes) (i k : ℕ) (hc : ChainOk n i (k + 1)) :
    ChainOk n (pstep n i) k := by
  intro m hm
  have := hc (m + 1) (by omega)
  rwa [Function.iterate_succ_apply] at this

/-- Helper: a suffix of a chain is a chain. -/
theorem chainOk_drop (n : Nodes) (i : ℕ) (a c : ℕ) (hc : ChainOk n i (a + c)) :
    ChainOk n ((pstep n)^[a] i) c := by
  intro m hm
  have := hc (a + m) (by omega)
  rw [Nat.add_comm a m] at this
  rwa [Function.iterate_add_apply] at this

/-- Helper: all nodes of a chain from an in-range node are in range. -/
theorem chain_lt (N : ℕ) (n : Nodes) (hP : ParentsLtN N n) (i : ℕ) (hi : i < N) :
    ∀ m, ChainOk n i m → (pstep n)^[m] i < N := by
  intro m
  induction m with
  | zero => intro _; simpa using hi
  | succ mm ih =>
    intro hc
    have hlt : (pstep n)^[mm] i < N := ih (chainOk_mono n i (by omega) hc)
    have hnr : ¬ IsRootN n ((pstep n)^[mm] i) := hc mm (by omega)
    unfold IsRootN at hnr
    have hpl := hP ((pstep n)^[mm] i)
    rw [Function.iterate_succ_apply']
    have hps : pstep n ((pstep n)^[mm] i) = (pf n ((pstep n)^[mm] i)).toNat := rfl
    rw [hps]
    omega

/-- Helper: from any in-range node, a chain reaches a root in fewer than
`N` steps. -/
theorem exists_reach (N : ℕ) (n : Nodes) (hP : ParentsLtN N n) (hA : AcyclicN n)
    (i : ℕ) (hi : i < N) :
    ∃ k, k < N ∧ ChainOk n i k ∧ IsRootN n ((pstep n)^[k] i) := by
  by_cases hex : ∃ k, k < N ∧ IsRootN n ((pstep n)^[k] i)
  · obtain ⟨k, hkN, hkr⟩ := hex
    have hex' : ∃ k, IsRootN n ((pstep n)^[k] i) := ⟨k, hkr⟩
    refine ⟨Nat.find hex', ?_, ?_, Nat.find_spec hex'⟩
    · exact lt_of_le_of_lt (Nat.find_le hkr) hkN
    · intro m hm
      exact Nat.find_min hex' hm
  · push_neg at hex
    have hchain : ChainOk n i N := fun m hm => hex m hm
    have hmap : ∀ k ∈ Finset.range (N + 1), (pstep n)^[k] i ∈ Finset.range N := by
      intro k hk
      rw [Finset.mem_range] at hk
      rw [Finset.mem_range]
      exact chain_lt N n hP i hi k (chainOk_mono n i (by omega) hchain)
    obtain ⟨a, ha, b, hb, hab, heq⟩ :=
      Finset.exists_ne_map_eq_of_card_lt_of_maps_to (by simp) hmap
    rw [Finset.mem_range] at ha hb
    rcases Nat.lt_or_ge a b with hlt | hge
    · exfalso
      have hcyc : (pstep n)^[b - a] ((pstep n)^[a] i) = (pstep n)^[a] i := by
        rw [← Function.iterate_add_apply, Nat.sub_add_cancel (le_of_lt hlt)]
        exact heq.symm
      have hchain2 : ChainOk n ((pstep n)^[a] i) (b - a) := by
        have : a + (b - a) ≤ N := by omega
        exact chainOk_drop n i a (b - a) (chainOk_mono n i this hchain)
      exact hA _ (b - a) (by omega) hchain2 hcyc
    · have hlt : b < a := lt_of_le_of_ne hge (Ne.symm hab)
      exfalso
      have hcyc : (pstep n)^[a - b] ((pstep n)^[b] i) = (pstep n)^[b] i := by
        rw [← Function.iterate_add_apply, Nat.sub_add_cancel (le_of_lt hlt)]
        exact heq
      have hchain2 : ChainOk n ((pstep n)^[b] i) (a - b) := by
        have : b + (a - b) ≤ N := by omega
        exact chainOk_drop n i b (a - b) (chainOk_mono n i this hchain)
      exact hA _ (a - b) (by omega) hchain2 hcyc

/-- Helper: `findRoot` follows the chain to its root when the fuel covers
the chain length. -/
theorem findRoot_eq (n : Nodes) (k : ℕ) :
    ∀ (i fuel : ℕ), k ≤ fuel → ChainOk n i k → IsRootN n ((pstep n)^[k] i) →
      findRoot n fuel i = (pstep n)^[k] i := by
  induction k with
  | zero =>
    intro i fuel _ _ hroot
    simp only [Function.iterate_zero, id] at hroot ⊢
    cases fuel with
    | zero => rfl
    | succ m =>
      unfold findRoot
      unfold IsRootN at hroot
      rw [if_neg (by omega)]
  | succ k ih =>
    intro i fuel hfuel hchain hroot
    cases fuel with
    | zero => omega
    | succ m =>
      have hnr : ¬ IsRootN n i := by
        have := hchain 0 (by omega)
        simpa using this
      unfold IsRootN at hnr
      unfold findRoot
      rw [if_pos (by omega)]
      rw [Function.iterate_succ_apply] at hroot
      exact ih (pstep n i) m (by omega) (chainOk_shift n i k hchain) hroot

/-- Helper: with the invariant, `findRoot` with fuel `N` returns a genuine
root below `N`. -/
theorem findRoot_spec (N : ℕ) (n : Nodes) (hP : ParentsLtN N n) (hA : AcyclicN n)
    (i : ℕ) (hi : i < N) :
    IsRootN n (findRoot n N i) ∧ findRoot n N i < N := by
  obtain ⟨k, hkN, hchain, hroot⟩ := exists_reach N n hP hA i hi
  rw [findRoot_eq n k i N (le_of_lt hkN) hchain hroot]
  exact ⟨hroot, chain_lt N n hP i hi k hchain⟩

/-- Helper: pointing a non-root node `k` at a root `r` keeps the parent
forest acyclic. -/
theorem acyclicN_setParent (n : Nodes) (r k : ℕ) (hA : AcyclicN n) (hr : IsRootN n r)
    (hk : k ≠ r) (hklen : k < n.parent.length) : AcyclicN (setParent n k r) := by
  intro x c hc hchain hcyc
  have hstepk : pstep (setParent n k r) k = r := by
    rw [pstep_setParent]
    simp [hklen]
  have hrootr : IsRootN (setParent n k r) r := by
    rw [isRootN_setParent]
    exact ⟨fun hh => hk hh.1.symm, hr⟩
  by_cases hvisit : ∃ m, m < c ∧ (pstep (setParent n k r))^[m] x = k
  · obtain ⟨m0, hm0c, hm0⟩ := hvisit
    have hnext : (pstep (setParent n k r))^[m0 + 1] x = r := by
      rw [Function.iterate_succ_apply', hm0, hstepk]
    rcases Nat.lt_or_ge (m0 + 1) c with hlt | hge
    · have hnr := hchain (m0 + 1) hlt
      rw [hnext] at hnr
      exact hnr hrootr
    · have hc' : c = m0 + 1 := by omega
      have hx : x = r := by rw [← hcyc, hc', hnext]
      have h0 := hchain 0 hc
      simp only [Function.iterate_zero, id] at h0
      rw [hx] at h0
      exact h0 hrootr
  · push_neg at hvisit
    have hagree : ∀ m, m ≤ c → (pstep (setParent n k r))^[m] x = (pstep n)^[m] x := by
      intro m hm
      induction m with
      | zero => rfl
      | succ mm ihm =>
        rw [Function.iterate_succ_apply', Function.iterate_succ_apply',
          ihm (by omega)]
        have hy : (pstep n)^[mm] x ≠ k := by
          rw [← ihm (by omega)]
          exact hvisit mm (by omega)
        rw [pstep_setParent]
        simp [hy]
    have hchainN : ChainOk n x c := by
      intro m hm
      have hmn := hchain m hm
      rw [hagree m (le_of_lt hm)] at hmn
      intro hr2
      apply hmn
      rw [isRootN_setParent]
      refine ⟨?_, hr2⟩
      rintro ⟨heq, -⟩
      exact hvisit m hm (by rw [hagree m (le_of_lt hm), heq])
    apply hA x c hc hchainN
    rw [← hagree c (le_refl c)]
    exact hcyc

/-- Helper: parent writes of in-range values keep parents in range. -/
theorem parentsLtN_setParent (N : ℕ) (n : Nodes) (hP : ParentsLtN N n) (k r : ℕ)
    (hr : r < N) : ParentsLtN N (setParent n k r) := by
  intro m
  rw [pf_setParent]
  split_ifs with h
  · exact_mod_cast hr
  · exact hP m

/-- Helper: the whole union-find invariant after pointing a non-root at a
root. -/
theorem invN_setParent (N : ℕ) (n : Nodes) (k r : ℕ) (hI : InvN N n)
    (hroot : IsRootN n r) (hne : k ≠ r) (hkN : k < N) (hrN : r < N) :
    InvN N (setParent n k r) ∧ IsRootN (setParent n k r) r := by
  obtain ⟨hlen, hlenr, hP, hA⟩ := hI
  refine ⟨⟨?_, ?_, ?_, ?_⟩, ?_⟩
  · unfold setParent
    simp [List.length_set, hlen]
  · exact hlenr
  · exact parentsLtN_setParent N n hP k r hrN
  · exact acyclicN_setParent n r k hA hroot hne (by omega)
  · rw [isRootN_setParent]
    exact ⟨fun hh => hne hh.1.symm, hroot⟩

/-- Helper: path compression preserves the invariant, keeps the target
root a root, and never touches the ranks. -/
theorem compress_invN (N : ℕ) (r : ℕ) (fuel : ℕ) :
    ∀ (n : Nodes) (k : ℕ), InvN N n → IsRootN n r → r < N →
      InvN N (compress r fuel n k) ∧ IsRootN (compress r fuel n k) r ∧
      (compress r fuel n k).rank = n.rank := by
  induction fuel with
  | zero => exact fun n k hI hr _ => ⟨hI, hr, rfl⟩
  | succ m ih =>
    intro n k hI hr hrN
    unfold compress
    by_cases h : 0 ≤ pf n k
    · rw [if_pos h]
      have hk : k < n.parent.length := pf_nonneg_lt_length n k h
      have hkN : k < N := by rw [← hI.1]; exact hk
      have hne : k ≠ r := by
        intro he
        subst he
        unfold IsRootN at hr
        omega
      obtain ⟨hI', hr'⟩ := invN_setParent N n k r hI hr hne hkN hrN
      obtain ⟨h1, h2, h3⟩ := ih (setParent n k r) (pstep n k) hI' hr' hrN
      exact ⟨h1, h2, h3⟩
    · rw [if_neg h]
      exact ⟨hI, hr, rfl⟩

/-- Helper: one inner-loop union attempt preserves the union-loop state
invariant. -/
theorem unionTry_inv (sim : ℕ → ℕ → Bool) (N i j : ℕ) (st : Nodes × ℕ) (hj : j < N)
    (h : UStInv N st) : UStInv N (unionTry sim N i st j) := by
  obtain ⟨n, root⟩ := st
  obtain ⟨hI, hR, hroot, hrootN⟩ := h
  unfold unionTry
  by_cases h1 : i = j ∨ sim i j = false
  · rw [if_pos h1]
    exact ⟨hI, hR, hroot, hrootN⟩
  · rw [if_neg h1]
    try dsimp only
    obtain ⟨hr2root, hr2N⟩ := findRoot_spec N n hI.2.2.1 hI.2.2.2 j hj
    by_cases h2 : findRoot n N j = root
    · rw [if_pos h2]
      exact ⟨hI, hR, hroot, hrootN⟩
    · rw [if_neg h2]
      try dsimp only
      by_cases h3 : rf n (findRoot n N j) < rf n root
      · rw [if_pos h3]
        try dsimp only
        obtain ⟨hI', hroot'⟩ :=
          invN_setParent N n (findRoot n N j) root hI hroot h2 hr2N hrootN
        have hR' : RanksPos (setParent n (findRoot n N j) root) := hR
        obtain ⟨hI2, hroot2r, hrank2⟩ :=
          compress_invN N root N (setParent n (findRoot n N j) root) j hI' hroot' hrootN
        obtain ⟨hI3, hroot3, hrank3⟩ :=
          compress_invN N root N _ i hI2 hroot2r hrootN
        refine ⟨hI3, ?_, hroot3, hrootN⟩
        intro m
        unfold rf
        rw [hrank3, hrank2]
        exact hR m
      · rw [if_neg h3]
        try dsimp only
        obtain ⟨hI1, hroot1⟩ :=
          invN_setParent N n root (findRoot n N j) hI hr2root
            (fun he => h2 he.symm) hrootN hr2N
        by_cases h4 : rf n root = rf n (findRoot n N j)
        · rw [if_pos h4]
          try dsimp only
          set n1 := setParent n root (findRoot n N j) with hn1
          set n2 := setRank n1 (findRoot n N j) (rf n (findRoot n N j) + 1) with hn2
          have hI2 : InvN N n2 := by
            refine ⟨hI1.1, ?_, hI1.2.2.1, hI1.2.2.2⟩
            rw [hn2]
            unfold setRank
            simpa using hI1.2.1
          have hroot2 : IsRootN n2 (findRoot n N j) := hroot1
          have hR2 : RanksPos n2 := by
            intro m
            rw [hn2]
            rw [show rf (setRank n1 (findRoot n N j) (rf n (findRoot n N j) + 1)) m =
              if m = findRoot n N j ∧ findRoot n N j < n1.rank.length then
                rf n (findRoot n N j) + 1 else rf n1 m from rf_setRank n1 _ _ m]
            split_ifs with hm
            · have hg : 0 ≤ rf n (findRoot n N j) := hR (findRoot n N j)
              omega
            · exact hR m
          obtain ⟨hI3, hroot3, hrank3⟩ :=
            compress_invN N (findRoot n N j) N n2 j hI2 hroot2 hr2N
          obtain ⟨hI4, hroot4, hrank4⟩ :=
            compress_invN N (findRoot n N j) N _ i hI3 hroot3 hr2N
          refine ⟨hI4, ?_, hroot4, hr2N⟩
          intro m
          unfold rf
          rw [hrank4, hrank3]
          exact hR2 m
        · rw [if_neg h4]
          try dsimp only
          have hR1 : RanksPos (setParent n root (findRoot n N j)) := hR
          obtain ⟨hI3, hroot3, hrank3⟩ :=
            compress_invN N (findRoot n N j) N _ j hI1 hroot1 hr2N
          obtain ⟨hI4, hroot4, hrank4⟩ :=
            compress_invN N (findRoot n N j) N _ i hI3 hroot3 hr2N
          refine ⟨hI4, ?_, hroot4, hr2N⟩
          intro m
          unfold rf
          rw [hrank4, hrank3]
          exact hR1 m

/-- Helper: the initial node arrays satisfy the invariant. -/
theorem initNodes_inv (N : ℕ) : InvN N (initNodes N) ∧ RanksPos (initNodes N) := by
  have hpf : ∀ i, pf (initNodes N) i = -1 := by
    intro i
    unfold pf initNodes
    by_cases hi : i < N
    · rw [List.getD_eq_getElem _ _ (by simpa using hi)]
      simp
    · rw [List.getD_eq_default _ _ (by simpa using (by omega : N ≤ i))]
  refine ⟨⟨by simp [initNodes], by simp [initNodes], ?_, ?_⟩, ?_⟩
  · intro i
    rw [hpf i]
    have : (0 : ℤ) ≤ (N : ℤ) := Int.natCast_nonneg N
    omega
  · intro i k hk hchain
    exfalso
    apply hchain 0 hk
    unfold IsRootN
    rw [hpf]
    omega
  · intro i
    unfold rf initNodes
    by_cases hi : i < N
    · rw [List.getD_eq_getElem _ _ (by simpa using hi)]
      simp
    · rw [List.getD_eq_default _ _ (by simpa using (by omega : N ≤ i))]

/-- Helper: the union loop of `Partition` produces a forest satisfying the
invariant, with all ranks still nonnegative. -/
theorem unionLoop_inv (sim : ℕ → ℕ → Bool) (N : ℕ) :
    InvN N (unionLoop sim N) ∧ RanksPos (unionLoop sim N) := by
  unfold unionLoop
  refine List.foldlRecOn (motive := fun n => InvN N n ∧ RanksPos n) (List.range N) _
    (initNodes N) (initNodes_inv N) ?_
  intro n hn i hi
  have hiN : i < N := List.mem_range.mp hi
  have hst : UStInv N (n, findRoot n N i) := by
    obtain ⟨hI, hR⟩ := hn
    obtain ⟨hr1, hr2⟩ := findRoot_spec N n hI.2.2.1 hI.2.2.2 i hiN
    exact ⟨hI, hR, hr1, hr2⟩
  have hfold : UStInv N ((List.range N).foldl (unionTry sim N i) (n, findRoot n N i)) :=
    List.foldlRecOn (motive := fun st => UStInv N st) _ _ _ hst
      (fun st hs j hj => unionTry_inv sim N i j st (List.mem_range.mp hj) hs)
  exact ⟨hfold.1, hfold.2.1⟩

/-- Helper: one labelling step preserves the labelling invariant. -/
theorem labelStep_inv (N : ℕ) (st : Nodes × ℤ × List ℤ) (i : ℕ) (hi : i < N)
    (h : LabelInv N st) : LabelInv N (labelStep N st i) := by
  obtain ⟨n, ncl, labels⟩ := st
  obtain ⟨hI, hncl0, hRR0, hlab0, hsurj0⟩ := h
  have hIn : InvN N n := hI
  have hncl : (0 : ℤ) ≤ ncl := hncl0
  have hRR : ∀ r, IsRootN n r →
      (0 ≤ rf n r ∨ ∃ c, 0 ≤ c ∧ c < ncl ∧ rf n r = intNot c) := hRR0
  have hlab : ∀ l ∈ labels, 0 ≤ l ∧ l < ncl := hlab0
  have hsurj : ∀ c : ℤ, 0 ≤ c → c < ncl → c ∈ labels := hsurj0
  unfold labelStep
  dsimp only
  obtain ⟨hrootr, hrootN⟩ := findRoot_spec N n hIn.2.2.1 hIn.2.2.2 i hi
  by_cases hc : 0 ≤ rf n (findRoot n N i)
  · rw [if_pos hc]
    dsimp only
    have hRlen : findRoot n N i < n.rank.length := by rw [hIn.2.1]; exact hrootN
    have hrfnew : rf (setRank n (findRoot n N i) (intNot ncl)) (findRoot n N i) =
        intNot ncl := by
      rw [rf_setRank]
      simp [hRlen]
    unfold LabelInv
    dsimp only
    refine ⟨?_, by omega, ?_, ?_, ?_⟩
    · refine ⟨hIn.1, ?_, hIn.2.2.1, hIn.2.2.2⟩
      unfold setRank
      simpa using hIn.2.1
    · intro r hrroot
      have hrroot' : IsRootN n r := hrroot
      by_cases hrR : r = findRoot n N i
      · subst hrR
        right
        exact ⟨ncl, hncl, by omega, hrfnew⟩
      · rw [show rf (setRank n (findRoot n N i) (intNot ncl)) r = rf n r from by
          rw [rf_setRank]; simp [hrR]]
        rcases hRR r hrroot' with h0 | ⟨c, hc0, hcn, hce⟩
        · exact Or.inl h0
        · exact Or.inr ⟨c, hc0, by omega, hce⟩
    · intro l hl
      rw [List.mem_append] at hl
      rcases hl with hl | hl
      · obtain ⟨h1, h2⟩ := hlab l hl
        exact ⟨h1, by omega⟩
      · rw [List.mem_singleton] at hl
        subst hl
        rw [hrfnew]
        unfold intNot
        constructor <;> omega
    · intro c hc0 hcmax
      rw [List.mem_append]
      by_cases hceq : c = ncl
      · right
        rw [List.mem_singleton, hceq, hrfnew]
        unfold intNot
        omega
      · left
        exact hsurj c hc0 (by omega)
  · rw [if_neg hc]
    dsimp only
    rcases hRR (findRoot n N i) hrootr with h0 | ⟨c, hc0, hcn, hce⟩
    · exact absurd h0 hc
    unfold LabelInv
    dsimp only
    refine ⟨hI, hncl, hRR, ?_, ?_⟩
    · intro l hl
      rw [List.mem_append] at hl
      rcases hl with hl | hl
      · exact hlab l hl
      · rw [List.mem_singleton] at hl
        subst hl
        rw [hce]
        unfold intNot
        constructor <;> omega
    · intro c2 h1 h2
      rw [List.mem_append]
      exact Or.inl (hsurj c2 h1 h2)

/-- Helper: the labelling loop establishes the labelling invariant. -/
theorem labelLoop_inv (N : ℕ) (n0 : Nodes) (h0 : InvN N n0) (hR0 : RanksPos n0) :
    LabelInv N ((List.range N).foldl (labelStep N) (n0, 0, [])) := by
  have hinit : LabelInv N (n0, 0, []) := by
    unfold LabelInv
    dsimp only
    exact ⟨h0, le_refl 0, fun r _ => Or.inl (hR0 r), by simp,
      fun c h1 h2 => absurd h2 (by omega)⟩
  exact List.foldlRecOn (motive := fun st => LabelInv N st) _ _ _ hinit
    (fun st hst i hi => labelStep_inv N st i (List.mem_range.mp hi) hst)

/-- Helper: each labelling step appends exactly one label. -/
theorem labelLoop_length (N : ℕ) :
    ∀ (l : List ℕ) (st : Nodes × ℤ × List ℤ),
      (l.foldl (labelStep N) st).2.2.length = st.2.2.length + l.length := by
  intro l
  induction l with
  | nil => intro st; simp
  | cons a l ih =>
    intro st
    rw [List.foldl_cons, ih]
    unfold labelStep
    dsimp only
    rw [List.length_append]
    simp
    omega

/-- Helper: the result of `Partition` over any similarity function: the
class count is nonnegative, there are as many labels as inputs, every label
lies in `[0, nclasses)`, and every class below `nclasses` is the label of
some input. -/
theorem partitionCore_props (sim : ℕ → ℕ → Bool) (N : ℕ) :
    0 ≤ (PartitionCore sim N).2 ∧ (PartitionCore sim N).1.length = N ∧
    (∀ l ∈ (PartitionCore sim N).1, 0 ≤ l ∧ l < (PartitionCore sim N).2) ∧
    (∀ c : ℤ, 0 ≤ c → c < (PartitionCore sim N).2 → c ∈ (PartitionCore sim N).1) := by
  obtain ⟨hI, hR⟩ := unionLoop_inv sim N
  have hinv := labelLoop_inv N (unionLoop sim N) hI hR
  have hlen := labelLoop_length N (List.range N) (unionLoop sim N, 0, [])
  unfold PartitionCore
  dsimp only
  exact ⟨hinv.2.1, by simpa using hlen, hinv.2.2.2.1, hinv.2.2.2.2⟩

/-- Helper: the accumulation buffer of `GroupObjects` has `nclasses`
entries. -/
theorem accumulate_length (src : List Object) (labels : List ℤ) (ncl : ℤ) :
    (accumulate src labels ncl).length = ncl.toNat := by
  unfold accumulate
  have hfold : ∀ (l : List ℕ) (buf : List Object),
      (l.foldl (accumStep src labels) buf).length = buf.length := by
    intro l
    induction l with
    | nil => intro buf; rfl
    | cons a l ih =>
      intro buf
      rw [List.foldl_cons, ih]
      unfold accumStep
      dsimp only
      rw [List.length_set]
  rw [hfold]
  simp

/-- C10: `Partition` returns a nonnegative class count, resizes the labels
to the input length, and every label lies in `[0, nclasses)` (with
`nclasses ≥ 1` for a non-empty input), so every `buffer[cls]` access of
`GroupObjects` — whose buffer has `nclasses` entries — is in bounds. -/
theorem partition_labels_in_range (vec : List Object) (sdm : ℚ) :
    0 ≤ (Partition vec sdm).2 ∧
    (Partition vec sdm).1.length = vec.length ∧
    (∀ l ∈ (Partition vec sdm).1, 0 ≤ l ∧ l < (Partition vec sdm).2) ∧
    (∀ l ∈ (Partition vec sdm).1,
      l.toNat < (accumulate vec (Partition vec sdm).1 (Partition vec sdm).2).length) ∧
    (vec = [] ∨ 1 ≤ (Partition vec sdm).2) := by
  unfold Partition
  obtain ⟨h1, h2, h3, h4⟩ := partitionCore_props
    (fun i j => Similar sdm (vec.getD i Object.default) (vec.getD j Object.default))
    vec.length
  refine ⟨h1, h2, h3, ?_, ?_⟩
  · intro l hl
    rw [accumulate_length]
    obtain ⟨hl0, hl1⟩ := h3 l hl
    omega
  · rcases vec with _ | ⟨v, vs⟩
    · exact Or.inl rfl
    · right
      have hne : (PartitionCore
          (fun i j => Similar sdm ((v :: vs).getD i Object.default)
            ((v :: vs).getD j Object.default)) (v :: vs).length).1 ≠ [] := by
        intro he
        rw [he] at h2
        simp at h2
      obtain ⟨l, hl⟩ := List.exists_mem_of_ne_nil _ hne
      obtain ⟨hl0, hl1⟩ := h3 l hl
      omega

/-- Helper: rectangle addition is associative. -/
theorem Rect.add_assoc (a b c : Rect) : (a.add b).add c = a.add (b.add c) := by
  simp [Rect.add]
  refine ⟨by ring, by ring, by ring, by ring⟩

/-- Helper: the zero rectangle is a left unit for addition. -/
theorem Rect.zero_add (a : Rect) : Rect.zero.add a = a := by
  simp [Rect.add, Rect.zero]

/-- Helper: the zero rectangle is a right unit for addition. -/
theorem Rect.add_zero (a : Rect) : a.add Rect.zero = a := by
  simp [Rect.add, Rect.zero]

/-- Helper: the accumulation loop of `GroupObjects`, characterised at one
class: starting from any buffer, it adds the member rectangles, counts the
members, and keeps the last member's tag. -/
theorem accum_fold_spec (src : List Object) (labels : List ℤ) (cls : ℕ) :
    ∀ (L : List ℕ) (buf : List Object), cls < buf.length →
      (L.foldl (accumStep src labels) buf).getD cls Object.default =
        ⟨((buf.getD cls Object.default).rect).add
            (sumRects ((L.filter (fun i => (labels.getD i 0).toNat = cls)).map
              (fun i => (src.getD i Object.default).rect))),
          (buf.getD cls Object.default).weight +
            ((L.filter (fun i => (labels.getD i 0).toNat = cls)).length : ℤ),
          ((L.filter (fun i => (labels.getD i 0).toNat = cls)).map
              (fun i => (src.getD i Object.default).tag)).getLastD
            ((buf.getD cls Object.default).tag)⟩ := by
  intro L
  induction L with
  | nil =>
    intro buf hcls
    simp only [List.foldl_nil, List.filter_nil, List.map_nil, List.length_nil,
      List.getLastD_nil, Nat.cast_zero, add_zero, sumRects, Rect.add_zero]
  | cons a L ih =>
    intro buf hcls
    rw [List.foldl_cons]
    have hlen : cls < (accumStep src labels buf a).length := by
      unfold accumStep
      dsimp only
      rw [List.length_set]
      exact hcls
    rw [ih _ hlen]
    by_cases hmem : (labels.getD a 0).toNat = cls
    · have hbufa : (accumStep src labels buf a).getD cls Object.default =
          ⟨(buf.getD cls Object.default).rect.add (src.getD a Object.default).rect,
            (buf.getD cls Object.default).weight + 1,
            (src.getD a Object.default).tag⟩ := by
        unfold accumStep
        dsimp only
        rw [hmem]
        rw [List.getD_eq_getElem _ _ (by rw [List.length_set]; exact hcls)]
        rw [List.getElem_set_self]
      rw [hbufa]
      simp only [List.filter_cons, decide_eq_true_eq, if_pos hmem, List.map_cons,
        List.length_cons, List.getLastD_cons]
      rw [Object.mk.injEq]
      refine ⟨Rect.add_assoc _ _ _, by push_cast; ring, rfl⟩
    · have hbufa : (accumStep src labels buf a).getD cls Object.default =
          buf.getD cls Object.default := by
        unfold accumStep
        dsimp only
        rw [List.getD_eq_getElem _ _ (by rw [List.length_set]; exact hcls)]
        rw [List.getElem_set_ne hmem]
        rw [← List.getD_eq_getElem buf Object.default hcls]
      rw [hbufa]
      simp only [List.filter_cons, decide_eq_true_eq, if_neg hmem]

/-- C4: for labels from `Partition`, each class `cls` below `nclasses` has
at least one member, the averaged buffer has exactly one entry per class,
and that entry holds the component-wise mean of the member rectangles, the
member count as weight, and the last member's tag. -/
theorem partition_accumulate_mean (src : List Object) (sdm : ℚ) (cls : ℤ)
    (h0 : 0 ≤ cls) (hlt : cls < (Partition src sdm).2) :
    classMembers (Partition src sdm).1 cls ≠ [] ∧
    (average (accumulate src (Partition src sdm).1 (Partition src sdm).2)).length =
      (Partition src sdm).2.toNat ∧
    (average (accumulate src (Partition src sdm).1 (Partition src sdm).2)).getD
        cls.toNat Object.default =
      ⟨(sumRects ((classMembers (Partition src sdm).1 cls).map
            (fun i => (src.getD i Object.default).rect))).divQ
          ((classMembers (Partition src sdm).1 cls).length : ℚ),
        ((classMembers (Partition src sdm).1 cls).length : ℤ),
        ((classMembers (Partition src sdm).1 cls).map
            (fun i => (src.getD i Object.default).tag)).getLastD
          UNDEFINED_OBJECT_TAG⟩ := by
  obtain ⟨hpos, hlen, hbnd, hsurj⟩ := partitionCore_props
    (fun i j => Similar sdm (src.getD i Object.default) (src.getD j Object.default))
    src.length
  have hpos' : (0 : ℤ) ≤ (Partition src sdm).2 := hpos
  have hlen' : (Partition src sdm).1.length = src.length := hlen
  have hbnd' : ∀ l ∈ (Partition src sdm).1, 0 ≤ l ∧ l < (Partition src sdm).2 := hbnd
  have hsurj' : ∀ c : ℤ, 0 ≤ c → c < (Partition src sdm).2 → c ∈ (Partition src sdm).1 :=
    hsurj
  set labels := (Partition src sdm).1 with hlabels
  set ncl := (Partition src sdm).2 with hncl
  have hclsnat : cls.toNat < ncl.toNat := by omega
  have hfiltereq : classMembers labels cls =
      (List.range labels.length).filter (fun i => (labels.getD i 0).toNat = cls.toNat) := by
    unfold classMembers
    apply List.filter_congr
    intro i hi
    rw [List.mem_range] at hi
    have hmem : labels.getD i 0 ∈ labels := by
      rw [List.getD_eq_getElem _ _ hi]
      exact List.getElem_mem hi
    obtain ⟨hl0, -⟩ := hbnd' _ hmem
    simp only [decide_eq_decide]
    omega
  have hrep : cls.toNat < (List.replicate ncl.toNat Object.default).length := by
    simpa using hclsnat
  have hrepD : (List.replicate ncl.toNat Object.default).getD cls.toNat Object.default =
      Object.default := by
    rw [List.getD_eq_getElem _ _ hrep]
    simp
  have hacc : (accumulate src labels ncl).getD cls.toNat Object.default =
      ⟨sumRects ((classMembers labels cls).map (fun i => (src.getD i Object.default).rect)),
        ((classMembers labels cls).length : ℤ),
        ((classMembers labels cls).map (fun i => (src.getD i Object.default).tag)).getLastD
          UNDEFINED_OBJECT_TAG⟩ := by
    unfold accumulate
    rw [accum_fold_spec src labels cls.toNat (List.range labels.length)
      (List.replicate ncl.toNat Object.default) hrep]
    rw [hrepD, hfiltereq]
    rw [Object.mk.injEq]
    exact ⟨Rect.zero_add _, by simp [Object.default], rfl⟩
  have hacclen : cls.toNat < (accumulate src labels ncl).length := by
    rw [accumulate_length]
    exact hclsnat
  refine ⟨?_, ?_, ?_⟩
  · have hmem : cls ∈ labels := hsurj' cls h0 hlt
    obtain ⟨i, hi, hieq⟩ := List.mem_iff_getElem.1 hmem
    have : i ∈ classMembers labels cls := by
      unfold classMembers
      rw [List.mem_filter, List.mem_range]
      refine ⟨hi, ?_⟩
      rw [List.getD_eq_getElem _ _ hi, hieq]
      simp
    exact List.ne_nil_of_mem this
  · unfold average
    rw [List.length_map, accumulate_length]
  · unfold average
    rw [List.getD_eq_getElem _ _ (by simpa using hacclen), List.getElem_map,
      ← List.getD_eq_getElem _ Object.default hacclen, hacc]
    simp

/-- Witness for C1, at `[t, b) = [0, 7)`, three workers and
`throughColumn` scanning. -/
theorem hid_detect_strip_equiv_witness :
    (0 < 3) ∧ ((0 : ℤ) ≤ 7) ∧
    (StripSplitSpec 0 7 3 true ∧
      runStrips (fun r : ℤ => r) 0 true 0 7 3 = runDetect (fun r : ℤ => r) 0 true 0 7) :=
  ⟨by decide, by decide,
    hid_detect_strip_equiv 0 7 3 true (fun r : ℤ => r) 0 (by decide) (by decide)⟩

/-- Witness for C4, at a single candidate (one class). -/
theorem partition_accumulate_mean_witness :
    ((0 : ℤ) ≤ 0) ∧
    ((0 : ℤ) < (Partition [⟨⟨0, 0, 4, 4⟩, 1, 7⟩] (1/5)).2) ∧
    (classMembers (Partition [⟨⟨0, 0, 4, 4⟩, 1, 7⟩] (1/5)).1 0 ≠ [] ∧
     (average (accumulate [⟨⟨0, 0, 4, 4⟩, 1, 7⟩] (Partition [⟨⟨0, 0, 4, 4⟩, 1, 7⟩] (1/5)).1
        (Partition [⟨⟨0, 0, 4, 4⟩, 1, 7⟩] (1/5)).2)).length =
       (Partition [⟨⟨0, 0, 4, 4⟩, 1, 7⟩] (1/5)).2.toNat ∧
     (average (accumulate [⟨⟨0, 0, 4, 4⟩, 1, 7⟩] (Partition [⟨⟨0, 0, 4, 4⟩, 1, 7⟩] (1/5)).1
        (Partition [⟨⟨0, 0, 4, 4⟩, 1, 7⟩] (1/5)).2)).getD (0 : ℤ).toNat Object.default =
      ⟨(sumRects ((classMembers (Partition [⟨⟨0, 0, 4, 4⟩, 1, 7⟩] (1/5)).1 0).map
            (fun i => (([⟨⟨0, 0, 4, 4⟩, 1, 7⟩] : List Object).getD i Object.default).rect))).divQ
          ((classMembers (Partition [⟨⟨0, 0, 4, 4⟩, 1, 7⟩] (1/5)).1 0).length : ℚ),
        ((classMembers (Partition [⟨⟨0, 0, 4, 4⟩, 1, 7⟩] (1/5)).1 0).length : ℤ),
        ((classMembers (Partition [⟨⟨0, 0, 4, 4⟩, 1, 7⟩] (1/5)).1 0).map
            (fun i => (([⟨⟨0, 0, 4, 4⟩, 1, 7⟩] : List Object).getD i Object.default).tag)).getLastD
          UNDEFINED_OBJECT_TAG⟩) :=
  ⟨by decide, by decide,
    partition_accumulate_mean [⟨⟨0, 0, 4, 4⟩, 1, 7⟩] (1/5) 0 (by decide) (by decide)⟩

/-- Witness for the amended C5, at a concrete weight-1 object. -/
theorem groupObjects_single_fixed_point_witness :
    (⟨⟨0, 0, 4, 4⟩, 1, 7⟩ : Object).weight = 1 ∧
    GroupObjects [] [⟨⟨0, 0, 4, 4⟩, 1, 7⟩] 1 (1/5) =
      [] ++ [⟨(⟨⟨0, 0, 4, 4⟩, 1, 7⟩ : Object).rect, 1, (⟨⟨0, 0, 4, 4⟩, 1, 7⟩ : Object).tag⟩] :=
  ⟨rfl, groupObjects_single_fixed_point [] ⟨⟨0, 0, 4, 4⟩, 1, 7⟩ (1/5) rfl⟩

/-- Witness for the amended C6, at a three-level pyramid and level 1. -/
theorem fillLevels_cascade_witness :
    (1 ≤ 1) ∧ (1 < ([⟨8, 8⟩, ⟨4, 4⟩, ⟨2, 2⟩] : List Sz).length) ∧
    ((FillLevels true false [⟨8, 8⟩, ⟨4, 4⟩, ⟨2, 2⟩]).getD 1 Img.input =
      Img.resized ((FillLevels true false [⟨8, 8⟩, ⟨4, 4⟩, ⟨2, 2⟩]).getD 0 Img.input)
        (([⟨8, 8⟩, ⟨4, 4⟩, ⟨2, 2⟩] : List Sz).getD 1 ⟨0, 0⟩) ∧
     (FillLevels true false [⟨8, 8⟩, ⟨4, 4⟩, ⟨2, 2⟩]).getD 0 Img.input =
      (if false then
        Img.normalized (Img.resized (if true then Img.input else Img.gray Img.input)
          (([⟨8, 8⟩, ⟨4, 4⟩, ⟨2, 2⟩] : List Sz).getD 0 ⟨0, 0⟩))
       else Img.resized (if true then Img.input else Img.gray Img.input)
          (([⟨8, 8⟩, ⟨4, 4⟩, ⟨2, 2⟩] : List Sz).getD 0 ⟨0, 0⟩))) :=
  ⟨by decide, by decide,
    fillLevels_cascade true false [⟨8, 8⟩, ⟨4, 4⟩, ⟨2, 2⟩] 1 (by decide) (by decide)⟩

/-- Witness for the amended C8, at the concrete bind-failure run. -/
theorem init_failure_detect_witness :
    (Init ⟨[⟨⟨5, 5⟩, 0, false, false, false⟩], ⟨0, 0⟩, false, [], 0⟩ ⟨10, 10⟩ 2 ⟨0, 0⟩
        ⟨1000, 1000⟩ 1 1 (fun _ _ => false) 5 =
      some (⟨[⟨⟨5, 5⟩, 0, false, false, false⟩], ⟨10, 10⟩, false,
        [⟨1, true, [], false, false⟩], 0⟩, false)) ∧
    ((⟨[⟨⟨5, 5⟩, 0, false, false, false⟩], ⟨0, 0⟩, false, [], 0⟩ : DState).data = [] →
      (⟨[⟨⟨5, 5⟩, 0, false, false, false⟩], ⟨10, 10⟩, false,
        [⟨1, true, [], false, false⟩], 0⟩ : DState) =
      ⟨[⟨⟨5, 5⟩, 0, false, false, false⟩], ⟨0, 0⟩, false, [], 0⟩) ∧
    ∀ (cand : ℕ → ℕ → List Object) (srcSize : Sz) (objects : List Object)
      (groupSizeMin : ℕ) (sdm : ℚ),
      ((Detect ⟨[⟨⟨5, 5⟩, 0, false, false, false⟩], ⟨10, 10⟩, false,
          [⟨1, true, [], false, false⟩], 0⟩ cand srcSize objects groupSizeMin sdm).1 = true ↔
        ((⟨[⟨⟨5, 5⟩, 0, false, false, false⟩], ⟨10, 10⟩, false,
          [⟨1, true, [], false, false⟩], 0⟩ : DState).levels ≠ [] ∧
          srcSize = (⟨[⟨⟨5, 5⟩, 0, false, false, false⟩], ⟨10, 10⟩, false,
            [⟨1, true, [], false, false⟩], 0⟩ : DState).imageSize)) :=
  ⟨by with_unfolding_all decide,
    init_failure_detect ⟨[⟨⟨5, 5⟩, 0, false, false, false⟩], ⟨0, 0⟩, false, [], 0⟩
      ⟨10, 10⟩ 2 ⟨0, 0⟩ ⟨1000, 1000⟩ 1 1 (fun _ _ => false) 5
      ⟨[⟨⟨5, 5⟩, 0, false, false, false⟩], ⟨10, 10⟩, false, [⟨1, true, [], false, false⟩], 0⟩
      (by with_unfolding_all decide)⟩

/-- Witness for C9, at one model of window `4` on a `10x10` image with
`sizeMax = 8` and factor `2`: levels are emitted at scales `1` and `2`. -/
theorem initLevels_scale_emission_witness :
    ((1 : ℚ) < 2) ∧
    (InitLevels [⟨⟨4, 4⟩, 0, false, false, false⟩] ⟨10, 10⟩ ⟨0, 0⟩ ⟨8, 8⟩ 2
        (fun _ _ => true) 10 =
      some ([⟨1, true, [0], false, false⟩, ⟨2, true, [0], false, false⟩], false, true)) ∧
    (∃ K, (∀ k, k < K →
        allExitB [⟨⟨4, 4⟩, 0, false, false, false⟩] ⟨10, 10⟩ ⟨8, 8⟩ ((2 : ℚ) ^ k) = false) ∧
      allExitB [⟨⟨4, 4⟩, 0, false, false, false⟩] ⟨10, 10⟩ ⟨8, 8⟩ ((2 : ℚ) ^ K) = true ∧
      ([⟨1, true, [0], false, false⟩, ⟨2, true, [0], false, false⟩] : List LevelE) =
        ((List.range K).filter
          (fun k => anyInsertB [⟨⟨4, 4⟩, 0, false, false, false⟩] ⟨10, 10⟩ ⟨0, 0⟩ ⟨8, 8⟩
            ((2 : ℚ) ^ k))).map
          (fun k => mkLevelAt [⟨⟨4, 4⟩, 0, false, false, false⟩] ⟨10, 10⟩ ⟨0, 0⟩ ⟨8, 8⟩
            ((2 : ℚ) ^ k)) ∧
      (true : Bool) = !([⟨1, true, [0], false, false⟩,
        ⟨2, true, [0], false, false⟩] : List LevelE).isEmpty ∧
      ∀ a b, a < b →
        b < ([⟨1, true, [0], false, false⟩, ⟨2, true, [0], false, false⟩] : List LevelE).length →
        (([⟨1, true, [0], false, false⟩, ⟨2, true, [0], false, false⟩] : List LevelE).getD a
          ⟨1, false, [], false, false⟩).scale <
        (([⟨1, true, [0], false, false⟩, ⟨2, true, [0], false, false⟩] : List LevelE).getD b
          ⟨1, false, [], false, false⟩).scale) :=
  ⟨by decide, by with_unfolding_all decide,
    initLevels_scale_emission [⟨⟨4, 4⟩, 0, false, false, false⟩] ⟨10, 10⟩ ⟨0, 0⟩ ⟨8, 8⟩ 2 10
      [⟨1, true, [0], false, false⟩, ⟨2, true, [0], false, false⟩] false true
      (by decide) (by with_unfolding_all decide)⟩

end SimdDetection
